import Mathlib

/-!
Shallow embedding of the Vestaflare text layout engine.

JS strings are modelled as `List Char`; the functions below are direct
translations of the TypeScript source (`src/src/index.ts`, text-formatter part,
and the worker's VBML encoder/decoder).  Case mapping (`toUpperCase`,
`toLowerCase`) is modelled by Lean's ASCII `Char.toUpper` / `Char.toLower`,
and the `\s` regex class by the common ASCII whitespace characters; the
character set the program handles is ASCII, where these agree with JS.

Loops whose index jumps forward by a variable amount are written with an
explicit fuel argument so that they are structurally recursive and compute
in the kernel; every iteration advances the index by at least one, so a fuel
of the scanned string's length is sufficient and the fuel-exhaustion branch
(which mirrors the loop-guard-false result) is never reached.
-/

namespace Vestaflare

/-- Convert a Lean string literal to the `List Char` string model. -/
def str (s : String) : List Char := s.toList

/-- ASCII whitespace, modelling the JS regex class `\s` (and `String.trim`)
on the ASCII range: space, tab, newline, carriage return. -/
def isJsWs (c : Char) : Bool :=
  c == ' ' || c == '\t' || c == '\n' || c == '\r'

/-- JS `String.prototype.trim`: strip whitespace from both ends. -/
def jsTrim (s : List Char) : List Char :=
  ((s.dropWhile isJsWs).reverse.dropWhile isJsWs).reverse

/-- Accumulator loop for `split(/\s+/).filter(w => w.length > 0)`:
whitespace runs separate words, empty pieces are dropped. -/
def wordsAux : List Char → List Char → List (List Char)
  | [], cur => if cur.length > 0 then [cur] else []
  | c :: rest, cur =>
    if isJsWs c then
      if cur.length > 0 then cur :: wordsAux rest [] else wordsAux rest []
    else wordsAux rest (cur ++ [c])

/-- `processedText.split(/\s+/).filter(word => word.length > 0)` (step 2 of
`formatTextForVestaboard`). -/
def splitWsFilter (s : List Char) : List (List Char) := wordsAux s []

/-- JS `s.startsWith(pat, i)`: does `pat` occur in `s` starting at index `i`? -/
def startsWithAt (s pat : List Char) (i : Nat) : Bool :=
  (s.drop i).take pat.length == pat

/-- Scan of JS `indexOf`: try each successive suffix, tracking its index. -/
def indexOfGo (pat : List Char) : List Char → Nat → Option Nat
  | [], _ => none
  | c :: rest, j =>
    if pat.isPrefixOf (c :: rest) then some j else indexOfGo pat rest (j + 1)

/-- JS `s.indexOf(pat, i)` for a nonempty pattern: index of the first
occurrence of `pat` at or after position `i`, `none` for JS `-1`. -/
def indexOfFrom (s pat : List Char) (i : Nat) : Option Nat :=
  indexOfGo pat (s.drop i) i

/-- JS `s.substring(a, b)` for `a ≤ b`. -/
def jsSubstring (s : List Char) (a b : Nat) : List Char :=
  (s.drop a).take (b - a)

/-- JS `s.replace(pat, repl)` with a plain-string pattern: replace the first
occurrence of `pat` (the replacement strings used by the source contain no
`$` patterns). -/
def replaceFirst (s pat repl : List Char) : List Char :=
  match s with
  | [] => if pat = [] then repl else []
  | c :: rest =>
    if pat = [] then repl ++ c :: rest
    else if pat.isPrefixOf (c :: rest) then repl ++ (c :: rest).drop pat.length
    else c :: replaceFirst rest pat repl

/-- The seven VBML color-directive tokens of the pattern
`/\x7b(red|orange|yellow|green|blue|violet|white)\x7d/gi`, in source order. -/
def colorTokens : List (List Char) :=
  [str "\x7bred\x7d", str "\x7borange\x7d", str "\x7byellow\x7d",
   str "\x7bgreen\x7d", str "\x7bblue\x7d", str "\x7bviolet\x7d",
   str "\x7bwhite\x7d"]

/-- Try to match one directive token case-insensitively at position `i`,
returning the matched substring of `s` (in its original case). -/
def tryColorAt (s : List Char) (i : Nat) (pat : List Char) : Option (List Char) :=
  if ((s.drop i).take pat.length).length = pat.length ∧
      ((s.drop i).take pat.length).map Char.toLower = pat then
    some ((s.drop i).take pat.length)
  else none

/-- First `some` among a list of candidate patterns. -/
def firstSome (ps : List (List Char)) (f : List Char → Option (List Char)) :
    Option (List Char) :=
  match ps with
  | [] => none
  | p :: rest =>
    match f p with
    | some m => some m
    | none => firstSome rest f

/-- Match of `VBML_COLOR_PATTERN` at position `i` (the seven alternatives are
mutually exclusive at a given position, so alternation order is irrelevant). -/
def matchColorAt (s : List Char) (i : Nat) : Option (List Char) :=
  firstSome colorTokens (tryColorAt s i)

/-- Fueled scan for the color-pattern matches; fuel bounds the remaining
iterations, each of which advances `i` by at least one. -/
def findColorMatchesF (s : List Char) : Nat → Nat → List (Nat × List Char)
  | 0, _ => []
  | fuel + 1, i =>
    if i < s.length then
      match matchColorAt s i with
      | some m => (i, m) :: findColorMatchesF s fuel (i + m.length)
      | none => findColorMatchesF s fuel (i + 1)
    else []

/-- Leftmost, non-overlapping matches of the color pattern, as
(index, matched text) pairs: the semantics of the source's
`while ((match = VBML_COLOR_PATTERN.exec(originalText)) !== null)` loop. -/
def findColorMatches (s : List Char) : List (Nat × List Char) :=
  findColorMatchesF s s.length 0

/-- Fueled decimal-digit expansion; `n` has at most `n + 1` digits. -/
def natDigitsF : Nat → Nat → List Char
  | 0, _ => []
  | fuel + 1, n =>
    if n < 10 then [Char.ofNat (48 + n)]
    else natDigitsF fuel (n / 10) ++ [Char.ofNat (48 + n % 10)]

/-- Decimal digits of a natural number (JS template `${n}`). -/
def natDigits (n : Nat) : List Char := natDigitsF (n + 1) n

/-- The placeholder `__COLOR_${j}__` substituted for the j-th color code. -/
def placeholderStr (j : Nat) : List Char :=
  str "__COLOR_" ++ natDigits j ++ str "__"

/-- The color-extraction loop of `formatTextForVestaboard` (step 1): for each
match, push `{index: match.index - offset, code: match[0]}` and replace the
first occurrence of the matched text by the placeholder. -/
def extractAux : List (Nat × List Char) → List Char → Int → Nat →
    List Char × List (Int × List Char)
  | [], processed, _, _ => (processed, [])
  | (idx, m) :: ms, processed, offset, j =>
    ((extractAux ms (replaceFirst processed m (placeholderStr j))
        (offset + ((m.length : Int) - ((placeholderStr j).length : Int)))
        (j + 1)).1,
     ((idx : Int) - offset, m) ::
       (extractAux ms (replaceFirst processed m (placeholderStr j))
         (offset + ((m.length : Int) - ((placeholderStr j).length : Int)))
         (j + 1)).2)

/-- Processed text (placeholders substituted) and the collected color codes. -/
def extractColors (raw : List Char) : List Char × List (Int × List Char) :=
  extractAux (findColorMatches raw) raw 0 0

/-- Length of a `^__COLOR_\d+__` match at the head of `s`, if any (the digit
run is maximal, which is the only way the regex alternative can succeed). -/
def placeholderPrefixLen (s : List Char) : Option Nat :=
  if s.take 8 = str "__COLOR_" then
    if 0 < ((s.drop 8).takeWhile Char.isDigit).length ∧
        (s.drop (8 + ((s.drop 8).takeWhile Char.isDigit).length)).take 2 = str "__" then
      some (10 + ((s.drop 8).takeWhile Char.isDigit).length)
    else none
  else none

/-- Fueled scan for `getEffectiveLength`; each step consumes at least one
character. -/
def getEffectiveLengthF : Nat → List Char → Nat
  | 0, _ => 0
  | fuel + 1, s =>
    match s with
    | [] => 0
    | c :: rest =>
      match placeholderPrefixLen (c :: rest) with
      | some k => 1 + getEffectiveLengthF fuel (rest.drop (k - 1))
      | none => 1 + getEffectiveLengthF fuel rest

/-- `getEffectiveLength`: the length of
`text.replace(/__COLOR_\d+__/g, 'X')` — each placeholder counts as one
display unit. -/
def getEffectiveLength (s : List Char) : Nat := getEffectiveLengthF s.length s

/-- The fueled split-point scan of `splitLongWord`: walks the word counting
placeholders as one unit until `maxLength` units are consumed, returning
`realIndex` (the raw index just past the last counted unit). -/
def splitWalkF (w : List Char) (maxLen : Nat) : Nat → Nat → Nat → Nat → Nat
  | 0, _, _, ri => ri
  | fuel + 1, i, cl, ri =>
    if i < w.length ∧ cl < maxLen then
      if startsWithAt w (str "__COLOR_") i then
        match indexOfFrom w (str "__") (i + 2) with
        | some e => splitWalkF w maxLen fuel (e + 2) (cl + 1) (e + 2)
        | none => splitWalkF w maxLen fuel (i + 1) (cl + 1) (i + 1)
      else splitWalkF w maxLen fuel (i + 1) (cl + 1) (i + 1)
    else ri

/-- The split point computed by one iteration of `splitLongWord`'s loop. -/
def splitWalk (w : List Char) (maxLen : Nat) : Nat :=
  splitWalkF w maxLen w.length 0 0 0

/-- Fueled outer loop of `splitLongWord`; each chunk is nonempty, so the
remainder shrinks. -/
def splitLongWordF : Nat → List Char → List (List Char)
  | 0, _ => []
  | fuel + 1, w =>
    if getEffectiveLength w > 22 then
      w.take (splitWalk w 22) :: splitLongWordF fuel (w.drop (splitWalk w 22))
    else if w.length > 0 then [w] else []

/-- `splitLongWord(word, VESTABOARD_COLS)`: repeatedly cut a chunk of 22
effective units off the front while the remainder is over-long.  The source
function takes `maxLength` as a parameter but is only ever called with the
column limit 22, which this model fixes. -/
def splitLongWord (w : List Char) : List (List Char) :=
  splitLongWordF (w.length + 1) w

/-- One step of `buildLinesWithWordWrapping`'s loop over words, carrying the
accumulated lines and the current line. -/
def buildAux : List (List Char) → List (List Char) → List Char → List (List Char)
  | [], lines, current => if current.length > 0 then lines ++ [current] else lines
  | w :: ws, lines, current =>
    if getEffectiveLength current + (if current.length > 0 then 1 else 0) +
        getEffectiveLength w ≤ 22 then
      buildAux ws lines (if current.length > 0 then current ++ ' ' :: w else current ++ w)
    else
      if getEffectiveLength w > 22 then
        buildAux ws
          ((if current.length > 0 then lines ++ [current] else lines) ++
            (splitLongWord w).dropLast)
          ((splitLongWord w).getLast?.getD [])
      else
        buildAux ws (if current.length > 0 then lines ++ [current] else lines) w

/-- `buildLinesWithWordWrapping(words, colorCodes)` (the `colorCodes` argument
is unused by the source body and omitted). -/
def buildLinesWithWordWrapping (words : List (List Char)) : List (List Char) :=
  buildAux words [] []

/-- The fueled character-copy loop of `handleOverflow`'s third ellipsis
branch: copies `truncateLength` effective units, keeping placeholders
intact. -/
def ellipsisWalkF (line : List Char) (truncLen : Nat) :
    Nat → Nat → Nat → List Char → List Char
  | 0, _, _, acc => acc
  | fuel + 1, i, cl, acc =>
    if i < line.length ∧ cl < truncLen then
      if startsWithAt line (str "__COLOR_") i then
        match indexOfFrom line (str "__") (i + 2) with
        | some e =>
          ellipsisWalkF line truncLen fuel (e + 2) (cl + 1)
            (acc ++ jsSubstring line i (e + 2))
        | none =>
          ellipsisWalkF line truncLen fuel (i + 1) (cl + 1)
            (acc ++ [line.getD i ' '])
      else
        ellipsisWalkF line truncLen fuel (i + 1) (cl + 1)
          (acc ++ [line.getD i ' '])
    else acc

/-- The copy loop of the third ellipsis branch, from the start of the line. -/
def ellipsisWalk (line : List Char) (truncLen : Nat) : List Char :=
  ellipsisWalkF line truncLen line.length 0 0 []

/-- The last-line rewrite of the ellipsis branch of `handleOverflow`: append
`...` if three units fit; cut two raw characters if one or two units are
missing; otherwise copy `max(0, effectiveLength - 3)` units (Nat subtraction)
and append `...`. -/
def ellipsisNewLast (lastLine : List Char) : List Char :=
  if getEffectiveLength lastLine ≤ 22 - 3 then lastLine ++ str "..."
  else if getEffectiveLength lastLine ≤ 22 - 1 then
    jsSubstring lastLine 0 (lastLine.length - 2) ++ str "..."
  else
    ellipsisWalk lastLine (getEffectiveLength lastLine - 3) ++ str "..."

/-- Overflow policies of `FormattingOptions.overflowHandling`. -/
inductive OverflowMode where
  | truncate
  | ellipsis
  | error
deriving DecidableEq, Repr

/-- The data interpolated into the `Error` thrown by `handleOverflow` in
`error` mode: `Text exceeds Vestaboard display capacity: ${lines.length}
lines (max: ${VESTABOARD_ROWS})`. -/
structure OverflowError where
  lineCount : Nat
  maxRows : Nat
deriving DecidableEq, Repr

instance {ε α : Type} [DecidableEq ε] [DecidableEq α] :
    DecidableEq (Except ε α) := fun x y =>
  match x, y with
  | .ok a, .ok b =>
    if h : a = b then isTrue (by rw [h]) else isFalse (by simp [h])
  | .error a, .error b =>
    if h : a = b then isTrue (by rw [h]) else isFalse (by simp [h])
  | .ok _, .error _ => isFalse (by simp)
  | .error _, .ok _ => isFalse (by simp)

/-- `handleOverflow(lines, overflowHandling)`. -/
def handleOverflow (lines : List (List Char)) (mode : OverflowMode) :
    Except OverflowError (List (List Char)) :=
  if lines.length ≤ 6 then .ok lines
  else
    match mode with
    | .error => .error ⟨lines.length, 6⟩
    | .ellipsis =>
      if (lines.take 6).length = 6 then
        .ok ((lines.take 6).dropLast ++
          [ellipsisNewLast ((lines.take 6).getLast?.getD [])])
      else .ok (lines.take 6)
    | .truncate => .ok (lines.take 6)

/-- The fueled character-copy loop of `truncateLineToFit`: like
`ellipsisWalkF`, but a placeholder whose closing `__` is missing is dropped
rather than copied. -/
def truncFitWalkF (line : List Char) (maxLen : Nat) :
    Nat → Nat → Nat → List Char → List Char
  | 0, _, _, acc => acc
  | fuel + 1, i, cl, acc =>
    if i < line.length ∧ cl < maxLen then
      if startsWithAt line (str "__COLOR_") i then
        match indexOfFrom line (str "__") (i + 2) with
        | some e =>
          if cl < maxLen then
            truncFitWalkF line maxLen fuel (e + 2) (cl + 1)
              (acc ++ jsSubstring line i (e + 2))
          else truncFitWalkF line maxLen fuel (i + 1) cl acc
        | none => truncFitWalkF line maxLen fuel (i + 1) cl acc
      else
        if cl < maxLen then
          truncFitWalkF line maxLen fuel (i + 1) (cl + 1)
            (acc ++ [line.getD i ' '])
        else truncFitWalkF line maxLen fuel (i + 1) cl acc
    else acc

/-- The copy loop of `truncateLineToFit`, from the start of the line. -/
def truncFitWalk (line : List Char) (maxLen : Nat) : List Char :=
  truncFitWalkF line maxLen line.length 0 0 []

/-- `truncateLineToFit(line, maxLength)`. -/
def truncateLineToFit (line : List Char) (maxLen : Nat) : List Char :=
  if getEffectiveLength line ≤ maxLen then line
  else truncFitWalk line maxLen

/-- `horizontalAlign` values. -/
inductive HAlign where
  | left
  | center
  | right
deriving DecidableEq, Repr

/-- `verticalAlign` values. -/
inductive VAlign where
  | top
  | middle
  | bottom
deriving DecidableEq, Repr

/-- `TextFormattingOptions`, with the source's defaults. -/
structure TextFormattingOptions where
  horizontalAlign : HAlign := .left
  verticalAlign : VAlign := .top
  overflowHandling : OverflowMode := .truncate
deriving DecidableEq, Repr

/-- `applyVerticalAlignment(lines, verticalAlign)`. -/
def applyVerticalAlignment (lines : List (List Char)) (v : VAlign) :
    List (List Char) :=
  if 6 ≤ lines.length ∨ v = .top then
    (lines ++ List.replicate (6 - lines.length) []).take 6
  else
    match v with
    | .middle =>
      List.replicate ((6 - lines.length) / 2) [] ++ lines ++
        List.replicate ((6 - lines.length) - (6 - lines.length) / 2) []
    | .bottom => List.replicate (6 - lines.length) [] ++ lines
    | .top => lines ++ List.replicate (6 - lines.length) []

/-- `applyHorizontalAlignment(line, horizontalAlign)`. -/
def applyHorizontalAlignment (line : List Char) (h : HAlign) : List Char :=
  if 22 ≤ getEffectiveLength line ∨ h = .left then
    if 22 < getEffectiveLength line then truncateLineToFit line 22 else line
  else
    match h with
    | .center =>
      List.replicate ((22 - getEffectiveLength line) / 2) ' ' ++ line ++
        List.replicate ((22 - getEffectiveLength line) -
          (22 - getEffectiveLength line) / 2) ' '
    | .right => List.replicate (22 - getEffectiveLength line) ' ' ++ line
    | .left => line ++ List.replicate (22 - getEffectiveLength line) ' '

/-- `restoreColorCodes`'s loop: replace the first occurrence of each
placeholder `__COLOR_i__` by the stored original code text. -/
def restoreAux (text : List Char) : List (Int × List Char) → Nat → List Char
  | [], _ => text
  | (_, code) :: rest, j =>
    restoreAux (replaceFirst text (placeholderStr j) code) rest (j + 1)

/-- `restoreColorCodes(text, colorCodes)`. -/
def restoreColorCodes (text : List Char) (codes : List (Int × List Char)) :
    List Char :=
  restoreAux text codes 0

/-- Join lines with `'\n'` (JS `Array.prototype.join('\n')`). -/
def joinNl : List (List Char) → List Char
  | [] => []
  | [l] => l
  | l :: rest => l ++ '\n' :: joinNl rest

/-- Split on `'\n'`, keeping empty pieces (JS `String.prototype.split('\n')`). -/
def splitNlAux : List Char → List Char → List (List Char)
  | [], cur => [cur]
  | c :: rest, cur =>
    if c = '\n' then cur :: splitNlAux rest [] else splitNlAux rest (cur ++ [c])

/-- The newline-separated lines of a string. -/
def splitNl (s : List Char) : List (List Char) := splitNlAux s []

/-- Steps 1–2 of `formatTextForVestaboard`: the words of the processed text. -/
def wrappedWords (raw : List Char) : List (List Char) :=
  splitWsFilter (extractColors raw).1

/-- Step 3 of `formatTextForVestaboard`: the wrapped lines before overflow
handling and alignment. -/
def wrappedLines (raw : List Char) : List (List Char) :=
  buildLinesWithWordWrapping (wrappedWords raw)

/-- `formatTextForVestaboard(rawText, options)`.  A thrown overflow `Error`
is modelled as `Except.error`. -/
def formatTextForVestaboard (raw : List Char) (opts : TextFormattingOptions) :
    Except OverflowError (List Char) :=
  if raw = [] ∨ jsTrim raw = [] then .ok []
  else
    match handleOverflow (wrappedLines raw) opts.overflowHandling with
    | .error e => .error e
    | .ok processedLines =>
      .ok (restoreColorCodes
        (joinNl ((applyVerticalAlignment processedLines opts.verticalAlign).map
          (fun l => applyHorizontalAlignment l opts.horizontalAlign)))
        (extractColors raw).2)

/-- `VBML_CHARACTER_MAP`: characters and color tokens to display codes. -/
def vbmlCharacterMap : List (List Char × Nat) :=
  [(str "A", 1), (str "B", 2), (str "C", 3), (str "D", 4), (str "E", 5),
   (str "F", 6), (str "G", 7), (str "H", 8), (str "I", 9), (str "J", 10),
   (str "K", 11), (str "L", 12), (str "M", 13), (str "N", 14), (str "O", 15),
   (str "P", 16), (str "Q", 17), (str "R", 18), (str "S", 19), (str "T", 20),
   (str "U", 21), (str "V", 22), (str "W", 23), (str "X", 24), (str "Y", 25),
   (str "Z", 26),
   (str "0", 27), (str "1", 28), (str "2", 29), (str "3", 30), (str "4", 31),
   (str "5", 32), (str "6", 33), (str "7", 34), (str "8", 35), (str "9", 36),
   (str "!", 37), (str "@", 38), (str "#", 39), (str "$", 40), (str "(", 41),
   (str ")", 42),
   (str "-", 44), (str "+", 46), (str "&", 47), (str "=", 48), (str ";", 49),
   (str ":", 50), (str "'", 52), (str "\"", 53), (str "%", 54), (str ",", 55),
   (str ".", 56), (str "/", 59), (str "?", 60), (str " ", 0),
   (str "\x7bred\x7d", 63), (str "\x7borange\x7d", 64),
   (str "\x7byellow\x7d", 65), (str "\x7bgreen\x7d", 66),
   (str "\x7bblue\x7d", 67), (str "\x7bviolet\x7d", 68),
   (str "\x7bwhite\x7d", 69)]

/-- `VBML_CHARACTER_MAP[k]`, `none` for JS `undefined`. -/
def mapLookup (k : List Char) : Option Nat :=
  (vbmlCharacterMap.find? (fun e => e.1 == k)).map (fun e => e.2)

/-- A write `matrix[row][col] = v`.  `none` models an out-of-bounds write
(a `TypeError` on a missing row, or silently growing a row past its 22
columns), which the safety claim asserts never happens. -/
def setCell (m : List (List Nat)) (r c v : Nat) : Option (List (List Nat)) :=
  match m.get? r with
  | none => none
  | some rowL =>
    if c < rowL.length then some (m.set r (rowL.set c v)) else none

/-- The column-overflow check run at the end of every loop iteration of
`vbmlToCharacterCodes`: `if (col >= 22) { row++; col = 0; }`. -/
def wrapCheck (row col : Nat) : Nat × Nat :=
  if 22 ≤ col then (row + 1, 0) else (row, col)

/-- The fueled loop of `vbmlToCharacterCodes`, carrying `(i, row, col,
matrix)`; each iteration advances `i` by at least one. -/
def vbmlToCharacterCodesF (vbml : List Char) :
    Nat → Nat → Nat → Nat → List (List Nat) → Option (List (List Nat))
  | 0, _, _, _, m => some m
  | fuel + 1, i, row, col, m =>
    if i < vbml.length ∧ row < 6 then
      if (vbml.getD i ' ').toUpper = '\x7b' then
        match indexOfFrom vbml (str "\x7d") i with
        | some e =>
          if (mapLookup ((jsSubstring vbml i (e + 1)).map Char.toLower)).getD 0 ≠ 0 then
            match setCell m row col
                ((mapLookup ((jsSubstring vbml i (e + 1)).map Char.toLower)).getD 0) with
            | some m' =>
              vbmlToCharacterCodesF vbml fuel (e + 1) (wrapCheck row (col + 1)).1
                (wrapCheck row (col + 1)).2 m'
            | none => none
          else
            vbmlToCharacterCodesF vbml fuel (i + 1) (wrapCheck row col).1
              (wrapCheck row col).2 m
        | none =>
          vbmlToCharacterCodesF vbml fuel (i + 1) (wrapCheck row col).1
            (wrapCheck row col).2 m
      else if (vbml.getD i ' ').toUpper = '\n' then
        vbmlToCharacterCodesF vbml fuel (i + 1) (wrapCheck (row + 1) 0).1
          (wrapCheck (row + 1) 0).2 m
      else
        match mapLookup [(vbml.getD i ' ').toUpper] with
        | some v =>
          match setCell m row col v with
          | some m' =>
            vbmlToCharacterCodesF vbml fuel (i + 1) (wrapCheck row (col + 1)).1
              (wrapCheck row (col + 1)).2 m'
          | none => none
        | none =>
          vbmlToCharacterCodesF vbml fuel (i + 1) (wrapCheck row col).1
            (wrapCheck row col).2 m
    else some m

/-- `vbmlToCharacterCodes(vbml)`: a 6×22 zero matrix filled left to right,
top to bottom. -/
def vbmlToCharacterCodes (vbml : List Char) : Option (List (List Nat)) :=
  vbmlToCharacterCodesF vbml vbml.length 0 0 0
    (List.replicate 6 (List.replicate 22 0))

/-- The reverse map of `characterCodesToText`: entries override earlier ones
with the same code, then `codeToChar[0] = ' '` is set; unknown codes decode
to `'?'`. -/
def decodeCode (code : Nat) : List Char :=
  ((if code = 0 then some (str " ")
    else ((vbmlCharacterMap.filter (fun e => e.2 == code)).getLast?).map
      (fun e => e.1))).getD (str "?")

/-- `characterCodesToText(matrix)`: decode each row and join with newlines. -/
def characterCodesToText (m : List (List Nat)) : List Char :=
  joinNl (m.map (fun row => (row.map decodeCode).flatten))

/-- Fueled scan for the effective display length of final output text. -/
def effectiveDisplayLengthF : Nat → List Char → Nat
  | 0, _ => 0
  | fuel + 1, s =>
    match s with
    | [] => 0
    | c :: rest =>
      match matchColorAt (c :: rest) 0 with
      | some m => 1 + effectiveDisplayLengthF fuel (rest.drop (m.length - 1))
      | none => 1 + effectiveDisplayLengthF fuel rest

/-- Effective display length of final output text: each complete color
directive counts as one display unit, every other character as one. -/
def effectiveDisplayLength (s : List Char) : Nat :=
  effectiveDisplayLengthF s.length s

/-- The character substitution replacing every newline by a space. -/
def newlineToSpace (c : Char) : Char := if c = '\n' then ' ' else c

/-- A display token of the wrapping stage, as it appears in the processed
text: a literal character or a color placeholder `__COLOR_n__`. -/
inductive FTok where
  | lit (c : Char)
  | ph (n : Nat)
deriving DecidableEq, Repr

/-- The raw text of a wrapping-stage token. -/
def FTok.render : FTok → List Char
  | .lit c => [c]
  | .ph n => placeholderStr n

/-- The raw text of a wrapping-stage token sequence. -/
def renderToks (ts : List FTok) : List Char := (ts.map FTok.render).flatten

/-- A literal that cannot collide with the placeholder marker: any character
other than an underscore. -/
def CleanTok : FTok → Prop
  | .lit c => c ≠ '_'
  | .ph _ => True

/-- Reference chunking of a token sequence into pieces of 22 tokens, all full
except possibly the last (fueled like `splitLongWordF`). -/
def chunksF : Nat → List FTok → List (List FTok)
  | 0, _ => []
  | fuel + 1, ts =>
    if 22 < ts.length then ts.take 22 :: chunksF fuel (ts.drop 22)
    else if ts.length > 0 then [ts] else []

/-- Chunks of 22 tokens, the last possibly shorter. -/
def chunks22 (ts : List FTok) : List (List FTok) := chunksF (ts.length + 1) ts

/-- A display token of the VBML encoding stage: a literal character or an
inline color directive with its original spelling. -/
inductive VTok where
  | lit (c : Char)
  | dir (cs : List Char)
deriving DecidableEq, Repr

/-- The raw text of a VBML token. -/
def VTok.render : VTok → List Char
  | .lit c => [c]
  | .dir cs => cs

/-- The raw text of a VBML token sequence. -/
def renderV (ts : List VTok) : List Char := (ts.map VTok.render).flatten

/-- A known VBML token: a literal whose upper case is in the symbol table, or
a directive whose lower-cased spelling is one of the seven color tokens. -/
def VTokWF : VTok → Prop
  | .lit c => ∃ v, mapLookup [c.toUpper] = some v
  | .dir cs => cs.map Char.toLower ∈ colorTokens

/-- The display code an encoded VBML token is written as. -/
def VTok.code : VTok → Nat
  | .lit c => (mapLookup [c.toUpper]).getD 0
  | .dir cs => (mapLookup (cs.map Char.toLower)).getD 0

/-- The normalized text of a VBML token: literals upper-cased, directives
lower-cased. -/
def VTok.normalize : VTok → List Char
  | .lit c => [c.toUpper]
  | .dir cs => cs.map Char.toLower

/-- The normalized text of a VBML token sequence. -/
def normalizeV (ts : List VTok) : List Char := (ts.map VTok.normalize).flatten

/-- Write a run of codes into a row starting at a column. -/
def setSeq (row : List Nat) (col : Nat) : List Nat → List Nat
  | [] => row
  | v :: vs => setSeq (row.set col v) (col + 1) vs

theorem jsTrim_eq_nil {s : List Char} (h : ∀ c ∈ s, isJsWs c = true) :
    jsTrim s = [] := by
  unfold jsTrim
  rw [List.dropWhile_eq_nil_iff.mpr h]
  simp

/-- C9: every input consisting only of spaces and newlines (in particular the
empty input) makes `formatTextForVestaboard` return the empty string, for
every options value — no 6-line blank grid is produced. -/
theorem C9_whitespace_only_returns_empty (raw : List Char)
    (opts : TextFormattingOptions) (h : ∀ c ∈ raw, c = ' ' ∨ c = '\n') :
    formatTextForVestaboard raw opts = .ok [] := by
  have hw : ∀ c ∈ raw, isJsWs c = true := by
    intro c hc
    rcases h c hc with rfl | rfl <;> rfl
  unfold formatTextForVestaboard
  rw [if_pos (Or.inr (jsTrim_eq_nil hw))]

theorem C9_witness :
    formatTextForVestaboard (str "  \n \n") {} = .ok [] :=
  C9_whitespace_only_returns_empty (str "  \n \n") {} (by decide)

theorem firstSome_eq_some {ps : List (List Char)} {f : List Char → Option (List Char)}
    {m : List Char} (h : firstSome ps f = some m) : ∃ p ∈ ps, f p = some m := by
  induction ps with
  | nil => simp [firstSome] at h
  | cons p rest ih =>
    rw [firstSome] at h
    cases hp : f p with
    | some m' => rw [hp] at h; exact ⟨p, by simp, by simpa [hp] using h⟩
    | none =>
      rw [hp] at h
      obtain ⟨q, hq, hfq⟩ := ih h
      exact ⟨q, by simp [hq], hfq⟩

theorem tryColorAt_eq_some {s pat m : List Char} {i : Nat}
    (h : tryColorAt s i pat = some m) :
    m = (s.drop i).take pat.length ∧ m.length = pat.length ∧
      m.map Char.toLower = pat := by
  unfold tryColorAt at h
  split at h
  · rename_i hcond
    cases h
    exact ⟨rfl, hcond.1, hcond.2⟩
  · exact absurd h (by simp)

theorem matchColorAt_ws_none {s : List Char} (hws : ∀ c ∈ s, isJsWs c = true)
    (i : Nat) : matchColorAt s i = none := by
  cases hm : matchColorAt s i with
  | none => rfl
  | some m =>
    exfalso
    obtain ⟨p, hp, hf⟩ := firstSome_eq_some hm
    obtain ⟨hm', hlen, hmap⟩ := tryColorAt_eq_some hf
    have hplen : 0 < p.length := by
      have hq : ∀ q ∈ colorTokens, 0 < q.length := by decide
      exact hq p hp
    have hhead : p.head? = some '\x7b' := by
      have hq : ∀ q ∈ colorTokens, q.head? = some '\x7b' := by decide
      exact hq p hp
    cases m with
    | nil => rw [← hlen] at hplen; simp at hplen
    | cons c m' =>
      have hc : Char.toLower c = '\x7b' := by
        rw [← hmap] at hhead
        simpa using hhead
      have hcs : c ∈ s := by
        have h1 : c ∈ (s.drop i).take p.length := by rw [← hm']; simp
        exact List.mem_of_mem_drop (List.mem_of_mem_take h1)
      have hwc := hws c hcs
      simp [isJsWs] at hwc
      rcases hwc with ((rfl | rfl) | rfl) | rfl <;> exact absurd hc (by decide)

theorem findColorMatchesF_ws_nil {s : List Char}
    (hws : ∀ c ∈ s, isJsWs c = true) :
    ∀ (fuel i : Nat), findColorMatchesF s fuel i = [] := by
  intro fuel
  induction fuel with
  | zero => intro i; rfl
  | succ fuel ih =>
    intro i
    rw [findColorMatchesF]
    split
    · rw [matchColorAt_ws_none hws]
      exact ih _
    · rfl

theorem wordsAux_ws_nil :
    ∀ (s : List Char), (∀ c ∈ s, isJsWs c = true) → wordsAux s [] = [] := by
  intro s
  induction s with
  | nil => intro _; rfl
  | cons c rest ih =>
    intro hws
    have hc : isJsWs c = true := hws c (by simp)
    simp only [wordsAux, hc, if_true, List.length_nil]
    simp only [show ¬((0 : Nat) > 0) by omega, if_false]
    exact ih (fun c' h => hws c' (List.mem_cons_of_mem _ h))

theorem wrappedLines_ws_nil {raw : List Char}
    (hws : ∀ c ∈ raw, isJsWs c = true) : wrappedLines raw = [] := by
  unfold wrappedLines wrappedWords extractColors findColorMatches
  rw [findColorMatchesF_ws_nil hws]
  show buildLinesWithWordWrapping (splitWsFilter raw) = []
  unfold splitWsFilter buildLinesWithWordWrapping
  rw [wordsAux_ws_nil raw hws]
  rfl

theorem jsTrim_nil_ws {s : List Char} (h : jsTrim s = []) :
    ∀ c ∈ s, isJsWs c = true := by
  unfold jsTrim at h
  have h1 : (s.dropWhile isJsWs).reverse.dropWhile isJsWs = [] := by
    have := congrArg List.reverse h
    simpa using this
  have h2 : ∀ c ∈ (s.dropWhile isJsWs).reverse, isJsWs c = true :=
    List.dropWhile_eq_nil_iff.mp h1
  have h3 : ∀ c ∈ s.dropWhile isJsWs, isJsWs c = true := by
    intro c hc
    exact h2 c (List.mem_reverse.mpr hc)
  intro c hc
  rw [← List.takeWhile_append_dropWhile (p := isJsWs) (l := s)] at hc
  rcases List.mem_append.mp hc with hc | hc
  · exact List.mem_takeWhile_imp hc
  · exact h3 c hc

theorem handleOverflow_error_iff {lines : List (List Char)}
    {mode : OverflowMode} {e : OverflowError} :
    handleOverflow lines mode = .error e ↔
      (mode = .error ∧ 6 < lines.length ∧ e = ⟨lines.length, 6⟩) := by
  cases mode with
  | truncate =>
    unfold handleOverflow
    by_cases hle : lines.length ≤ 6 <;> simp [hle]
  | ellipsis =>
    unfold handleOverflow
    by_cases hle : lines.length ≤ 6
    · simp [hle]
    · have ht : (lines.take 6).length = 6 := by
        rw [List.length_take]; omega
      simp [hle, ht]
  | error =>
    unfold handleOverflow
    by_cases hle : lines.length ≤ 6
    · simp [hle]
    · simp [hle]
      constructor
      · intro h
        exact ⟨by omega, h.symm⟩
      · rintro ⟨_, rfl⟩
        rfl

/-- C5: `formatTextForVestaboard` fails if and only if the wrapped text has
more than 6 lines and `overflowHandling` is `error`; the raised condition
carries the produced line count and the 6-line limit; and `handleOverflow`
returns at most-6-line inputs unchanged under every policy. -/
theorem C5_overflow_error_characterization :
    (∀ (raw : List Char) (opts : TextFormattingOptions),
        (∃ e, formatTextForVestaboard raw opts = .error e) ↔
          (opts.overflowHandling = .error ∧ 6 < (wrappedLines raw).length)) ∧
    (∀ (raw : List Char) (opts : TextFormattingOptions) (e : OverflowError),
        formatTextForVestaboard raw opts = .error e →
          e.lineCount = (wrappedLines raw).length ∧ e.maxRows = 6) ∧
    (∀ (lines : List (List Char)) (mode : OverflowMode),
        lines.length ≤ 6 → handleOverflow lines mode = .ok lines) := by
  have hfmt : ∀ (raw : List Char) (opts : TextFormattingOptions) (e : OverflowError),
      formatTextForVestaboard raw opts = .error e →
        (opts.overflowHandling = .error ∧ 6 < (wrappedLines raw).length ∧
          e = ⟨(wrappedLines raw).length, 6⟩) := by
    intro raw opts e h
    unfold formatTextForVestaboard at h
    split at h
    · exact absurd h (by simp)
    · cases hov : handleOverflow (wrappedLines raw) opts.overflowHandling with
      | error e' =>
        rw [hov] at h
        obtain ⟨hm, h6, he⟩ := handleOverflow_error_iff.mp hov
        have he' : e = e' := by
          have := (Except.error.injEq _ _).mp h
          exact this.symm
        exact ⟨hm, h6, he' ▸ he⟩
      | ok pl =>
        rw [hov] at h
        exact absurd h (by simp)
  refine ⟨?_, ?_, ?_⟩
  · intro raw opts
    constructor
    · intro ⟨e, he⟩
      obtain ⟨hm, h6, _⟩ := hfmt raw opts e he
      exact ⟨hm, h6⟩
    · intro ⟨hm, h6⟩
      refine ⟨⟨(wrappedLines raw).length, 6⟩, ?_⟩
      unfold formatTextForVestaboard
      split
      · rename_i htr
        exfalso
        have hwl : wrappedLines raw = [] := by
          rcases htr with rfl | htr
          · rfl
          · exact wrappedLines_ws_nil (jsTrim_nil_ws htr)
        rw [hwl] at h6
        simp at h6
      · have hov : handleOverflow (wrappedLines raw) opts.overflowHandling =
            .error ⟨(wrappedLines raw).length, 6⟩ :=
          handleOverflow_error_iff.mpr ⟨hm, h6, rfl⟩
        rw [hov]
  · intro raw opts e he
    obtain ⟨_, _, heq⟩ := hfmt raw opts e he
    rw [heq]
    exact ⟨rfl, rfl⟩
  · intro lines mode h
    unfold handleOverflow
    rw [if_pos h]

theorem C5_witness :
    handleOverflow [str "HI"] OverflowMode.ellipsis = .ok [str "HI"] :=
  C5_overflow_error_characterization.2.2 [str "HI"] OverflowMode.ellipsis
    (by decide)

theorem wrapCheck_col_lt (r c : Nat) : (wrapCheck r c).2 < 22 := by
  unfold wrapCheck
  split <;> simp <;> omega

theorem setCell_some {m : List (List Nat)} {row col v : Nat} {rowL : List Nat}
    (hr : m[row]? = some rowL) (hc : col < rowL.length) :
    setCell m row col v = some (m.set row (rowL.set col v)) := by
  unfold setCell
  rw [List.get?_eq_getElem?, hr]
  simp [hc]

theorem mapLookup_mem_values {k : List Char} {v : Nat}
    (h : mapLookup k = some v) : v ∈ vbmlCharacterMap.map (fun e => e.2) := by
  unfold mapLookup at h
  cases hf : vbmlCharacterMap.find? (fun e => e.1 == k) with
  | none => rw [hf] at h; simp at h
  | some e =>
    rw [hf] at h
    have he : e.2 = v := by simpa using h
    exact he ▸ List.mem_map_of_mem _ (List.mem_of_find?_eq_some hf)

theorem vbmlF_safe (vbml : List Char) :
    ∀ (fuel i row col : Nat) (m : List (List Nat)),
      m.length = 6 → (∀ r ∈ m, r.length = 22) →
      (∀ r ∈ m, ∀ v ∈ r, v = 0 ∨ v ∈ vbmlCharacterMap.map (fun e => e.2)) →
      col < 22 →
      ∃ m', vbmlToCharacterCodesF vbml fuel i row col m = some m' ∧
        m'.length = 6 ∧ (∀ r ∈ m', r.length = 22) ∧
        (∀ r ∈ m', ∀ v ∈ r, v = 0 ∨ v ∈ vbmlCharacterMap.map (fun e => e.2)) := by
  intro fuel
  induction fuel with
  | zero =>
    intro i row col m h6 h22 hcell _
    exact ⟨m, rfl, h6, h22, hcell⟩
  | succ fuel ih =>
    intro i row col m h6 h22 hcell hcol
    have hset : ∀ (v : Nat), row < 6 →
        (v = 0 ∨ v ∈ vbmlCharacterMap.map (fun e => e.2)) →
        ∃ m₂, setCell m row col v = some m₂ ∧ m₂.length = 6 ∧
          (∀ r ∈ m₂, r.length = 22) ∧
          (∀ r ∈ m₂, ∀ x ∈ r, x = 0 ∨ x ∈ vbmlCharacterMap.map (fun e => e.2)) := by
      intro v hrow hv
      have hrowlt : row < m.length := by omega
      have hr : m[row]? = some m[row] := List.getElem?_eq_getElem hrowlt
      have hmem : m[row] ∈ m := List.getElem_mem hrowlt
      have hlen : m[row].length = 22 := h22 _ hmem
      refine ⟨m.set row (m[row].set col v),
        setCell_some hr (by omega), ?_, ?_, ?_⟩
      · rw [List.length_set]; exact h6
      · intro r hrm
        rcases List.mem_or_eq_of_mem_set hrm with hrm | rfl
        · exact h22 r hrm
        · rw [List.length_set]; exact hlen
      · intro r hrm x hx
        rcases List.mem_or_eq_of_mem_set hrm with hrm | rfl
        · exact hcell r hrm x hx
        · rcases List.mem_or_eq_of_mem_set hx with hx | rfl
          · exact hcell _ hmem x hx
          · exact hv
    simp only [vbmlToCharacterCodesF]
    split
    · rename_i hguard
      split
      · split
        · rename_i e _
          split
          · rename_i hlk
            have hvmem : (mapLookup ((jsSubstring vbml i (e + 1)).map Char.toLower)).getD 0 ∈
                vbmlCharacterMap.map (fun x => x.2) := by
              cases hl : mapLookup ((jsSubstring vbml i (e + 1)).map Char.toLower) with
              | none => rw [hl] at hlk; simp at hlk
              | some v =>
                simpa using mapLookup_mem_values hl
            obtain ⟨m₂, hm₂, p6, p22, pc⟩ := hset _ hguard.2 (Or.inr hvmem)
            rw [hm₂]
            exact ih _ _ _ m₂ p6 p22 pc (wrapCheck_col_lt _ _)
          · exact ih _ _ _ m h6 h22 hcell (wrapCheck_col_lt _ _)
        · exact ih _ _ _ m h6 h22 hcell (wrapCheck_col_lt _ _)
      · split
        · exact ih _ _ _ m h6 h22 hcell (wrapCheck_col_lt _ _)
        · split
          · rename_i v hl
            obtain ⟨m₂, hm₂, p6, p22, pc⟩ :=
              hset v hguard.2 (Or.inr (mapLookup_mem_values hl))
            rw [hm₂]
            exact ih _ _ _ m₂ p6 p22 pc (wrapCheck_col_lt _ _)
          · exact ih _ _ _ m h6 h22 hcell (wrapCheck_col_lt _ _)
    · exact ⟨m, rfl, h6, h22, hcell⟩

/-- C10: for every input string the encoder returns (all its writes are in
bounds, so the modelled out-of-bounds failure never occurs) a matrix of
exactly 6 rows and 22 columns whose cells are the blank code 0 or codes of
the symbol table. -/
theorem C10_encoder_safe (s : List Char) :
    ∃ m, vbmlToCharacterCodes s = some m ∧ m.length = 6 ∧
      (∀ r ∈ m, r.length = 22) ∧
      (∀ r ∈ m, ∀ v ∈ r, v = 0 ∨ v ∈ vbmlCharacterMap.map (fun e => e.2)) := by
  unfold vbmlToCharacterCodes
  exact vbmlF_safe s s.length 0 0 0 _ (by simp) (by simp)
    (by intro r hr v hv; rw [List.eq_of_mem_replicate hr] at hv;
        exact Or.inl (List.eq_of_mem_replicate hv)) (by omega)

end Vestaflare

namespace Vestaflare

/-- C1 (counterexample): with default options, `formatTextForVestaboard "Hi"`
returns `"Hi\n\n\n\n\n"` — six lines, but the first has effective display
length 2 and the rest 0, not 22: left alignment (the default) never pads
lines to the full width. -/
theorem C1_counterexample :
    formatTextForVestaboard (str "Hi") {} = .ok (str "Hi\n\n\n\n\n") ∧
      ¬(∀ l ∈ splitNl (str "Hi\n\n\n\n\n"), effectiveDisplayLength l = 22) := by
  decide

/-- C2 (counterexample): the input `"a\nb"` contains a newline, yet the
wrapper packs `a` and `b` onto the same first output line (`"a b"`): the
newline is collapsed by `split(/\s+/)` instead of forcing a line break. -/
theorem C2_counterexample :
    formatTextForVestaboard (str "a\nb") {} = .ok (str "a b\n\n\n\n\n") ∧
      'a' ∈ (splitNl (str "a b\n\n\n\n\n")).getD 0 [] ∧
      'b' ∈ (splitNl (str "a b\n\n\n\n\n")).getD 0 [] := by
  decide

/-- C3 (code bug): `formatTextForVestaboard "{RED}"` returns the directive in
its original upper-case spelling — `restoreColorCodes` reinserts `match[0]`
verbatim — although the repository's own test
(`Mixed case preservation in VBML`) expects it normalized to `{red}`; the
output contains no lower-cased directive at all. -/
theorem C3_directive_case_preserved :
    formatTextForVestaboard (str "{RED}") {} = .ok (str "{RED}\n\n\n\n\n") ∧
      indexOfFrom (str "{RED}\n\n\n\n\n") (str "\x7bred\x7d") 0 = none := by
  decide

/-- C4 (code bug): under `overflowHandling = ellipsis`, a sixth line of
effective length 21 ending in a color placeholder is cut by the raw
two-character `substring` slice, destroying the `{red}` directive: the input
contains one color directive, the output none (the directive degenerates to
the stray text `_C` on the last line). -/
theorem C4_directive_truncated :
    formatTextForVestaboard
        (str "aaaaaaaaaaaa aaaaaaaaaaaa aaaaaaaaaaaa aaaaaaaaaaaa aaaaaaaaaaaa bbbbbbbbbbbbbbbbbbbb{red} c")
        {overflowHandling := .ellipsis} =
      .ok (str "aaaaaaaaaaaa\naaaaaaaaaaaa\naaaaaaaaaaaa\naaaaaaaaaaaa\naaaaaaaaaaaa\nbbbbbbbbbbbbbbbbbbbb_C") ∧
    (findColorMatches
        (str "aaaaaaaaaaaa aaaaaaaaaaaa aaaaaaaaaaaa aaaaaaaaaaaa aaaaaaaaaaaa bbbbbbbbbbbbbbbbbbbb{red} c")).length = 1 ∧
    findColorMatches
        (str "aaaaaaaaaaaa\naaaaaaaaaaaa\naaaaaaaaaaaa\naaaaaaaaaaaa\naaaaaaaaaaaa\nbbbbbbbbbbbbbbbbbbbb_C") = [] := by
  decide

/-- C7 (code bug): `formatTextForVestaboard("Hello", {horizontalAlign:
"center"})` centers with 8 blanks left and 9 right as claimed, but the text
stays `"Hello"` — the formatter never upper-cases, although the repository's
own tests (`Center alignment - short text`, expecting `HELLO`) and docs say
it does. -/
theorem C7_center_no_uppercase :
    formatTextForVestaboard (str "Hello") {horizontalAlign := .center} =
      .ok (str "        Hello         \n                      \n                      \n                      \n                      \n                      ") ∧
    (splitNl (str "        Hello         \n                      \n                      \n                      \n                      \n                      ")).getD 0 [] =
      List.replicate 8 ' ' ++ str "Hello" ++ List.replicate 9 ' ' ∧
    List.replicate 8 ' ' ++ str "Hello" ++ List.replicate 9 ' ' ≠
      List.replicate 8 ' ' ++ str "HELLO" ++ List.replicate 9 ' ' := by
  decide

end Vestaflare

namespace Vestaflare

theorem splitNlAux_length :
    ∀ (s cur : List Char), (splitNlAux s cur).length = s.count '\n' + 1 := by
  intro s
  induction s with
  | nil => intro cur; simp [splitNlAux]
  | cons c rest ih =>
    intro cur
    by_cases hc : c = '\n'
    · subst hc
      simp [splitNlAux, ih, List.count_cons]
    · simp [splitNlAux, hc, ih, List.count_cons]

theorem splitNl_length (s : List Char) :
    (splitNl s).length = s.count '\n' + 1 := splitNlAux_length s []

theorem joinNl_count :
    ∀ (ls : List (List Char)), ls ≠ [] → (∀ l ∈ ls, '\n' ∉ l) →
      (joinNl ls).count '\n' = ls.length - 1 := by
  intro ls
  induction ls with
  | nil => intro h; exact absurd rfl h
  | cons l rest ih =>
    intro _ hP
    cases rest with
    | nil =>
      simp [joinNl, List.count_eq_zero.mpr (hP l (by simp))]
    | cons l2 rest2 =>
      have hrec := ih (by simp) (fun x hx => hP x (List.mem_cons_of_mem _ hx))
      show (l ++ '\n' :: joinNl (l2 :: rest2)).count '\n' = _
      rw [List.count_append, List.count_cons]
      rw [List.count_eq_zero.mpr (hP l (by simp)), hrec]
      simp

theorem replaceFirst_count_nl :
    ∀ (s pat repl : List Char), '\n' ∉ pat → '\n' ∉ repl →
      (replaceFirst s pat repl).count '\n' = s.count '\n' := by
  intro s
  induction s with
  | nil =>
    intro pat repl hp hr
    show (if pat = [] then repl else []).count '\n' = _
    split
    · rw [List.count_eq_zero.mpr hr]; rfl
    · rfl
  | cons c rest ih =>
    intro pat repl hp hr
    show (if pat = [] then repl ++ c :: rest
      else if pat.isPrefixOf (c :: rest) then repl ++ (c :: rest).drop pat.length
      else c :: replaceFirst rest pat repl).count '\n' = _
    split
    · rw [List.count_append, List.count_eq_zero.mpr hr]; simp
    · split
      · rename_i hpre
        obtain ⟨t, ht⟩ := List.isPrefixOf_iff_prefix.mp hpre
        rw [List.count_append, List.count_eq_zero.mpr hr]
        conv_rhs => rw [← ht]
        rw [← ht, List.drop_left, List.count_append,
          List.count_eq_zero.mpr hp]
      · rw [List.count_cons, List.count_cons, ih pat repl hp hr]

theorem natDigitsF_isDigit :
    ∀ (fuel n : Nat), ∀ c ∈ natDigitsF fuel n, c.isDigit = true := by
  have hd : ∀ k < 10, (Char.ofNat (48 + k)).isDigit = true := by decide
  intro fuel
  induction fuel with
  | zero => intro n c hc; simp [natDigitsF] at hc
  | succ fuel ih =>
    intro n c hc
    rw [natDigitsF] at hc
    split at hc
    · rename_i hn
      simp at hc
      rw [hc]
      exact hd n hn
    · rcases List.mem_append.mp hc with hc | hc
      · exact ih _ c hc
      · simp at hc
        rw [hc]
        exact hd (n % 10) (by omega)

theorem isDigit_ne_nl {c : Char} (h : c.isDigit = true) : c ≠ '\n' := by
  intro hc
  rw [hc] at h
  exact absurd h (by decide)

theorem placeholderStr_not_nl (j : Nat) : '\n' ∉ placeholderStr j := by
  intro hmem
  unfold placeholderStr at hmem
  rcases List.mem_append.mp hmem with hmem | hmem
  · rcases List.mem_append.mp hmem with hmem | hmem
    · exact absurd hmem (by decide)
    · exact isDigit_ne_nl (natDigitsF_isDigit _ _ _ hmem) rfl
  · exact absurd hmem (by decide)

theorem restoreAux_count_nl :
    ∀ (codes : List (Int × List Char)) (text : List Char) (j : Nat),
      (∀ e ∈ codes, '\n' ∉ e.2) →
      (restoreAux text codes j).count '\n' = text.count '\n' := by
  intro codes
  induction codes with
  | nil => intro text j _; rfl
  | cons e rest ih =>
    intro text j hP
    obtain ⟨idx, code⟩ := e
    show (restoreAux (replaceFirst text (placeholderStr j) code) rest (j + 1)).count '\n' = _
    rw [ih _ _ (fun x hx => hP x (List.mem_cons_of_mem _ hx))]
    exact replaceFirst_count_nl _ _ _ (placeholderStr_not_nl j)
      (hP (idx, code) (by simp))

theorem findColorMatchesF_mem_shape :
    ∀ (fuel : Nat) (s : List Char) (i0 : Nat) (p : Nat × List Char),
      p ∈ findColorMatchesF s fuel i0 →
      ∃ q ∈ colorTokens, p.2.length = q.length ∧ p.2.map Char.toLower = q := by
  intro fuel
  induction fuel with
  | zero => intro s i0 p hp; simp [findColorMatchesF] at hp
  | succ fuel ih =>
    intro s i0 p hp
    rw [findColorMatchesF] at hp
    split at hp
    · cases hm : matchColorAt s i0 with
      | some m =>
        rw [hm] at hp
        rcases List.mem_cons.mp hp with rfl | hp
        · obtain ⟨q, hq, hf⟩ := firstSome_eq_some hm
          obtain ⟨_, hlen, hmap⟩ := tryColorAt_eq_some hf
          exact ⟨q, hq, hlen, hmap⟩
        · exact ih _ _ _ hp
      | none =>
        rw [hm] at hp
        exact ih _ _ _ hp
    · simp at hp

theorem colorMatch_not_nl {m : List Char}
    (h : ∃ q ∈ colorTokens, m.length = q.length ∧ m.map Char.toLower = q) :
    '\n' ∉ m := by
  obtain ⟨q, hq, _, hmap⟩ := h
  intro hmem
  have h1 : Char.toLower '\n' ∈ m.map Char.toLower := List.mem_map_of_mem _ hmem
  rw [hmap] at h1
  have h2 : '\n' ∈ q := by simpa using h1
  have : ∀ x ∈ colorTokens, '\n' ∉ x := by decide
  exact this q hq h2

theorem extractAux_snd_mem :
    ∀ (ms : List (Nat × List Char)) (processed : List Char) (off : Int) (j : Nat)
      (e : Int × List Char), e ∈ (extractAux ms processed off j).2 →
      ∃ p ∈ ms, e.2 = p.2 := by
  intro ms
  induction ms with
  | nil => intro _ _ _ e he; simp [extractAux] at he
  | cons p rest ih =>
    intro processed off j e he
    obtain ⟨idx, m⟩ := p
    rw [extractAux] at he
    simp only [List.mem_cons] at he
    rcases he with rfl | he
    · exact ⟨(idx, m), by simp, rfl⟩
    · obtain ⟨p', hp', hep⟩ := ih _ _ _ _ he
      exact ⟨p', List.mem_cons_of_mem _ hp', hep⟩

theorem extractColors_snd_not_nl (raw : List Char) :
    ∀ e ∈ (extractColors raw).2, '\n' ∉ e.2 := by
  intro e he
  obtain ⟨p, hp, hep⟩ := extractAux_snd_mem _ _ _ _ _ he
  rw [hep]
  exact colorMatch_not_nl (by
    have := findColorMatchesF_mem_shape _ _ _ _ hp
    exact this)

end Vestaflare

namespace Vestaflare

theorem getD_mem_or {α : Type} (l : List α) (i : Nat) (d : α) :
    l[i]?.getD d ∈ l ∨ l[i]?.getD d = d := by
  cases h : l[i]? with
  | none => right; simp
  | some a =>
    left
    simpa using List.getElem?_mem h

theorem jsSubstring_mem {s : List Char} {a b : Nat} {c : Char}
    (h : c ∈ jsSubstring s a b) : c ∈ s :=
  List.mem_of_mem_drop (List.mem_of_mem_take h)

theorem wordsAux_mem_not_ws :
    ∀ (s cur : List Char), (∀ c ∈ cur, isJsWs c = false) →
      ∀ w ∈ wordsAux s cur, ∀ c ∈ w, isJsWs c = false := by
  intro s
  induction s with
  | nil =>
    intro cur hcur w hw c hc
    rw [wordsAux] at hw
    split at hw
    · simp at hw; subst hw; exact hcur c hc
    · simp at hw
  | cons c0 rest ih =>
    intro cur hcur w hw c hc
    rw [wordsAux] at hw
    split at hw
    · split at hw
      · rcases List.mem_cons.mp hw with rfl | hw
        · exact hcur c hc
        · exact ih [] (by simp) w hw c hc
      · exact ih [] (by simp) w hw c hc
    · rename_i hc0
      refine ih (cur ++ [c0]) ?_ w hw c hc
      intro c' hc'
      rcases List.mem_append.mp hc' with h | h
      · exact hcur c' h
      · simp at h; subst h; simpa using hc0

theorem splitWsFilter_not_nl (s : List Char) :
    ∀ w ∈ splitWsFilter s, '\n' ∉ w := by
  intro w hw hmem
  have := wordsAux_mem_not_ws s [] (by simp) w hw '\n' hmem
  exact absurd this (by decide)

theorem splitLongWordF_mem :
    ∀ (fuel : Nat) (w ch : List Char), ch ∈ splitLongWordF fuel w →
      ∀ c ∈ ch, c ∈ w := by
  intro fuel
  induction fuel with
  | zero => intro w ch h; simp [splitLongWordF] at h
  | succ fuel ih =>
    intro w ch h c hc
    rw [splitLongWordF] at h
    split at h
    · rcases List.mem_cons.mp h with rfl | h
      · exact List.mem_of_mem_take hc
      · exact List.mem_of_mem_drop (ih _ _ h c hc)
    · split at h
      · simp at h; subst h; exact hc
      · simp at h

theorem getLastD_mem_or_nil (l : List (List Char)) :
    l.getLast?.getD [] ∈ l ∨ l.getLast?.getD [] = [] := by
  induction l with
  | nil => right; rfl
  | cons a t ih =>
    cases t with
    | nil => left; simp [List.getLast?]
    | cons b t2 =>
      rw [List.getLast?_cons_cons]
      rcases ih with h | h
      · left; exact List.mem_cons_of_mem _ h
      · right; exact h

theorem buildAux_not_nl :
    ∀ (ws lines : List (List Char)) (cur : List Char),
      (∀ w ∈ ws, '\n' ∉ w) → (∀ l ∈ lines, '\n' ∉ l) → '\n' ∉ cur →
      ∀ l ∈ buildAux ws lines cur, '\n' ∉ l := by
  intro ws
  induction ws with
  | nil =>
    intro lines cur _ hl hc l hmem
    rw [buildAux] at hmem
    split at hmem
    · rcases List.mem_append.mp hmem with h | h
      · exact hl l h
      · simp at h; subst h; exact hc
    · exact hl l hmem
  | cons w ws ih =>
    intro lines cur hws hl hc l hmem
    have hw : '\n' ∉ w := hws w (by simp)
    have hws' : ∀ x ∈ ws, '\n' ∉ x := fun x hx => hws x (List.mem_cons_of_mem _ hx)
    have hsplit : '\n' ∉ (splitLongWord w).getLast?.getD [] := by
      rcases getLastD_mem_or_nil (splitLongWord w) with h | h
      · intro hnl; exact hw (splitLongWordF_mem _ _ _ h _ hnl)
      · intro hnl; rw [h] at hnl; simp at hnl
    have hdrop : ∀ x ∈ (splitLongWord w).dropLast, '\n' ∉ x := by
      intro x hx hnl
      exact hw (splitLongWordF_mem _ _ _ (List.mem_of_mem_dropLast hx) _ hnl)
    rw [buildAux] at hmem
    by_cases hcl : cur.length > 0
    · simp only [hcl, if_true] at hmem
      split at hmem
      · refine ih lines _ hws' hl ?_ l hmem
        intro hnl
        rcases List.mem_append.mp hnl with h | h
        · exact hc h
        · rcases List.mem_cons.mp h with h | h
          · exact absurd h (by decide)
          · exact hw h
      · split at hmem
        · refine ih _ _ hws' ?_ hsplit l hmem
          intro x hx
          rcases List.mem_append.mp hx with hx | hx
          · rcases List.mem_append.mp hx with hx | hx
            · exact hl x hx
            · simp at hx; subst hx; exact hc
          · exact hdrop x hx
        · refine ih _ _ hws' ?_ hw l hmem
          intro x hx
          rcases List.mem_append.mp hx with hx | hx
          · exact hl x hx
          · simp at hx; subst hx; exact hc
    · simp only [hcl, if_false] at hmem
      split at hmem
      · refine ih lines _ hws' hl ?_ l hmem
        intro hnl
        rcases List.mem_append.mp hnl with h | h
        · exact hc h
        · exact hw h
      · split at hmem
        · refine ih _ _ hws' ?_ hsplit l hmem
          intro x hx
          rcases List.mem_append.mp hx with hx | hx
          · exact hl x hx
          · exact hdrop x hx
        · exact ih _ _ hws' hl hw l hmem

theorem wrappedLines_not_nl (raw : List Char) :
    ∀ l ∈ wrappedLines raw, '\n' ∉ l := by
  intro l hl
  unfold wrappedLines wrappedWords buildLinesWithWordWrapping at hl
  exact buildAux_not_nl _ [] []
    (fun w hw => splitWsFilter_not_nl _ w hw) (by simp) (by simp) l hl

theorem ellipsisWalkF_mem :
    ∀ (fuel : Nat) (line : List Char) (t i cl : Nat) (acc : List Char) (c : Char),
      c ∈ ellipsisWalkF line t fuel i cl acc → c ∈ acc ∨ c ∈ line ∨ c = ' ' := by
  intro fuel
  induction fuel with
  | zero =>
    intro line t i cl acc c h
    rw [ellipsisWalkF] at h
    exact Or.inl h
  | succ fuel ih =>
    intro line t i cl acc c h
    rw [ellipsisWalkF] at h
    split at h
    · split at h
      · split at h
        · rcases ih _ _ _ _ _ _ h with h' | h' | h'
          · rcases List.mem_append.mp h' with h'' | h''
            · exact Or.inl h''
            · exact Or.inr (Or.inl (jsSubstring_mem h''))
          · exact Or.inr (Or.inl h')
          · exact Or.inr (Or.inr h')
        · rcases ih _ _ _ _ _ _ h with h' | h' | h'
          · rcases List.mem_append.mp h' with h'' | h''
            · exact Or.inl h''
            · simp at h''
              subst h''
              rcases getD_mem_or line i ' ' with hg | hg
              · exact Or.inr (Or.inl hg)
              · exact Or.inr (Or.inr hg)
          · exact Or.inr (Or.inl h')
          · exact Or.inr (Or.inr h')
      · rcases ih _ _ _ _ _ _ h with h' | h' | h'
        · rcases List.mem_append.mp h' with h'' | h''
          · exact Or.inl h''
          · simp at h''
            subst h''
            rcases getD_mem_or line i ' ' with hg | hg
            · exact Or.inr (Or.inl hg)
            · exact Or.inr (Or.inr hg)
        · exact Or.inr (Or.inl h')
        · exact Or.inr (Or.inr h')
    · exact Or.inl h

theorem truncFitWalkF_mem :
    ∀ (fuel : Nat) (line : List Char) (t i cl : Nat) (acc : List Char) (c : Char),
      c ∈ truncFitWalkF line t fuel i cl acc → c ∈ acc ∨ c ∈ line ∨ c = ' ' := by
  intro fuel
  induction fuel with
  | zero =>
    intro line t i cl acc c h
    rw [truncFitWalkF] at h
    exact Or.inl h
  | succ fuel ih =>
    intro line t i cl acc c h
    rw [truncFitWalkF] at h
    split at h
    · split at h
      · split at h
        · split at h
          · rcases ih _ _ _ _ _ _ h with h' | h' | h'
            · rcases List.mem_append.mp h' with h'' | h''
              · exact Or.inl h''
              · exact Or.inr (Or.inl (jsSubstring_mem h''))
            · exact Or.inr (Or.inl h')
            · exact Or.inr (Or.inr h')
          · exact ih _ _ _ _ _ _ h
        · exact ih _ _ _ _ _ _ h
      · split at h
        · rcases ih _ _ _ _ _ _ h with h' | h' | h'
          · rcases List.mem_append.mp h' with h'' | h''
            · exact Or.inl h''
            · simp at h''
              subst h''
              rcases getD_mem_or line i ' ' with hg | hg
              · exact Or.inr (Or.inl hg)
              · exact Or.inr (Or.inr hg)
          · exact Or.inr (Or.inl h')
          · exact Or.inr (Or.inr h')
        · exact ih _ _ _ _ _ _ h
    · exact Or.inl h

theorem truncateLineToFit_not_nl {line : List Char} {maxLen : Nat}
    (h : '\n' ∉ line) : '\n' ∉ truncateLineToFit line maxLen := by
  unfold truncateLineToFit
  split
  · exact h
  · intro hmem
    rcases truncFitWalkF_mem _ _ _ _ _ _ _ hmem with h' | h' | h'
    · simp at h'
    · exact h h'
    · exact absurd h' (by decide)

theorem ellipsisNewLast_not_nl {line : List Char} (h : '\n' ∉ line) :
    '\n' ∉ ellipsisNewLast line := by
  unfold ellipsisNewLast
  split
  · intro hmem
    rcases List.mem_append.mp hmem with h' | h'
    · exact h h'
    · exact absurd h' (by decide)
  · split
    · intro hmem
      rcases List.mem_append.mp hmem with h' | h'
      · exact h (jsSubstring_mem h')
      · exact absurd h' (by decide)
    · intro hmem
      rcases List.mem_append.mp hmem with h' | h'
      · rcases ellipsisWalkF_mem _ _ _ _ _ _ _ h' with h'' | h'' | h''
        · simp at h''
        · exact h h''
        · exact absurd h'' (by decide)
      · exact absurd h' (by decide)

theorem handleOverflow_ok_not_nl {lines pl : List (List Char)}
    {mode : OverflowMode} (h : handleOverflow lines mode = .ok pl)
    (hP : ∀ l ∈ lines, '\n' ∉ l) : ∀ l ∈ pl, '\n' ∉ l := by
  cases mode with
  | truncate =>
    unfold handleOverflow at h
    split at h
    · cases h; exact hP
    · have h' : Except.ok (ε := OverflowError) (lines.take 6) = .ok pl := h
      cases h'
      exact fun l hl => hP l (List.mem_of_mem_take hl)
  | error =>
    unfold handleOverflow at h
    split at h
    · cases h; exact hP
    · have h' : Except.error (α := List (List Char))
          (OverflowError.mk lines.length 6) = .ok pl := h
      exact absurd h' (by simp)
  | ellipsis =>
    unfold handleOverflow at h
    split at h
    · cases h; exact hP
    · have h' : (if (lines.take 6).length = 6 then
          Except.ok (ε := OverflowError) ((lines.take 6).dropLast ++
            [ellipsisNewLast ((lines.take 6).getLast?.getD [])])
          else .ok (lines.take 6)) = .ok pl := h
      split at h'
      · cases h'
        intro l hl
        rcases List.mem_append.mp hl with hl | hl
        · exact hP l (List.mem_of_mem_take (List.mem_of_mem_dropLast hl))
        · simp at hl
          subst hl
          refine ellipsisNewLast_not_nl ?_
          rcases getLastD_mem_or_nil (lines.take 6) with hg | hg
          · exact hP _ (List.mem_of_mem_take hg)
          · rw [hg]; simp
      · cases h'
        exact fun l hl => hP l (List.mem_of_mem_take hl)

theorem applyVerticalAlignment_not_nl {lines : List (List Char)} {v : VAlign}
    (hP : ∀ l ∈ lines, '\n' ∉ l) :
    ∀ l ∈ applyVerticalAlignment lines v, '\n' ∉ l := by
  unfold applyVerticalAlignment
  have hrep : ∀ (n : Nat) (l : List Char),
      l ∈ List.replicate n ([] : List Char) → '\n' ∉ l := by
    intro n l hl
    rw [List.eq_of_mem_replicate hl]
    simp
  split
  · intro l hl
    rcases List.mem_append.mp (List.mem_of_mem_take hl) with h | h
    · exact hP l h
    · exact hrep _ l h
  · split
    · intro l hl
      rcases List.mem_append.mp hl with h | h
      · rcases List.mem_append.mp h with h' | h'
        · exact hrep _ l h'
        · exact hP l h'
      · exact hrep _ l h
    · intro l hl
      rcases List.mem_append.mp hl with h | h
      · exact hrep _ l h
      · exact hP l h
    · intro l hl
      rcases List.mem_append.mp hl with h | h
      · exact hP l h
      · exact hrep _ l h

theorem applyHorizontalAlignment_not_nl {line : List Char} {hA : HAlign}
    (h : '\n' ∉ line) : '\n' ∉ applyHorizontalAlignment line hA := by
  unfold applyHorizontalAlignment
  have hrep : ∀ (n : Nat), '\n' ∉ List.replicate n ' ' := by
    intro n hmem
    exact absurd (List.eq_of_mem_replicate hmem) (by decide)
  split
  · split
    · exact truncateLineToFit_not_nl h
    · exact h
  · split
    · intro hmem
      rcases List.mem_append.mp hmem with h' | h'
      · rcases List.mem_append.mp h' with h'' | h''
        · exact hrep _ h''
        · exact h h''
      · exact hrep _ h'
    · intro hmem
      rcases List.mem_append.mp hmem with h' | h'
      · exact hrep _ h'
      · exact h h'
    · intro hmem
      rcases List.mem_append.mp hmem with h' | h'
      · exact h h'
      · exact hrep _ h'

theorem applyVerticalAlignment_length (lines : List (List Char)) (v : VAlign) :
    (applyVerticalAlignment lines v).length = 6 := by
  unfold applyVerticalAlignment
  split
  · rw [List.length_take, List.length_append, List.length_replicate]
    omega
  · rename_i hcond
    have hlt : lines.length < 6 := by
      by_contra hge
      exact hcond (Or.inl (by omega))
    cases v with
    | top => exact absurd (Or.inr rfl) hcond
    | middle =>
      simp only [List.length_append, List.length_replicate]
      omega
    | bottom =>
      simp only [List.length_append, List.length_replicate]
      omega

end Vestaflare

namespace Vestaflare

/-- C1 (amended): for every input whose trimmed form is nonempty and every
options value, when `formatTextForVestaboard` returns normally its output
consists of exactly 6 newline-separated lines; the claim's other clause is
dropped as the counterexample forces — the lines are not in general padded
to 22 effective units, since left alignment (the default) returns short
lines unpadded. -/
theorem C1_amended_six_lines (raw : List Char) (opts : TextFormattingOptions)
    (out : List Char) (htrim : jsTrim raw ≠ [])
    (h : formatTextForVestaboard raw opts = .ok out) :
    (splitNl out).length = 6 := by
  unfold formatTextForVestaboard at h
  split at h
  · rename_i hcond
    rcases hcond with rfl | hcond
    · exact absurd rfl htrim
    · exact absurd hcond htrim
  · cases hov : handleOverflow (wrappedLines raw) opts.overflowHandling with
    | error e => rw [hov] at h; exact absurd h (by simp)
    | ok pl =>
      rw [hov] at h
      have hout : out = restoreColorCodes
          (joinNl ((applyVerticalAlignment pl opts.verticalAlign).map
            (fun l => applyHorizontalAlignment l opts.horizontalAlign)))
          (extractColors raw).2 := ((Except.ok.injEq _ _).mp h).symm
      have hlen6 : ((applyVerticalAlignment pl opts.verticalAlign).map
          (fun l => applyHorizontalAlignment l opts.horizontalAlign)).length = 6 := by
        rw [List.length_map, applyVerticalAlignment_length]
      have hnl : ∀ l ∈ (applyVerticalAlignment pl opts.verticalAlign).map
          (fun l => applyHorizontalAlignment l opts.horizontalAlign), '\n' ∉ l := by
        intro l hl
        obtain ⟨l0, hl0, rfl⟩ := List.mem_map.mp hl
        exact applyHorizontalAlignment_not_nl
          (applyVerticalAlignment_not_nl
            (handleOverflow_ok_not_nl hov (wrappedLines_not_nl raw)) l0 hl0)
      have hcount : out.count '\n' = 5 := by
        rw [hout]
        unfold restoreColorCodes
        rw [restoreAux_count_nl _ _ _ (extractColors_snd_not_nl raw)]
        rw [joinNl_count _ (by intro hf; rw [hf] at hlen6; simp at hlen6) hnl,
          hlen6]
      rw [splitNl_length, hcount]

theorem C1_witness : (splitNl (str "Hi\n\n\n\n\n")).length = 6 :=
  C1_amended_six_lines (str "Hi") {} (str "Hi\n\n\n\n\n") (by decide) (by decide)

end Vestaflare

namespace Vestaflare

theorem newlineToSpace_cases (c : Char) :
    newlineToSpace c = c ∨ (c = '\n' ∧ newlineToSpace c = ' ') := by
  unfold newlineToSpace
  by_cases h : c = '\n'
  · right; exact ⟨h, by rw [if_pos h]⟩
  · left; rw [if_neg h]

theorem newlineToSpace_eq_self {c : Char} (h : c ≠ '\n') :
    newlineToSpace c = c := by
  unfold newlineToSpace
  rw [if_neg h]

theorem isJsWs_newlineToSpace (c : Char) :
    isJsWs (newlineToSpace c) = isJsWs c := by
  rcases newlineToSpace_cases c with h | ⟨rfl, h⟩
  · rw [h]
  · rw [h]; decide

theorem map_newlineToSpace_id {l : List Char} (h : '\n' ∉ l) :
    l.map newlineToSpace = l := by
  induction l with
  | nil => rfl
  | cons c rest ih =>
    simp only [List.map_cons]
    rw [ih (fun hm => h (List.mem_cons_of_mem _ hm)),
      newlineToSpace_eq_self (fun hcc => h (hcc ▸ List.mem_cons_self c rest))]

theorem jsTrim_nil_iff {s : List Char} :
    jsTrim s = [] ↔ ∀ c ∈ s, isJsWs c = true :=
  ⟨jsTrim_nil_ws, jsTrim_eq_nil⟩

theorem wordsAux_map_newline :
    ∀ (s cur : List Char), wordsAux (s.map newlineToSpace) cur = wordsAux s cur := by
  intro s
  induction s with
  | nil => intro _; rfl
  | cons c rest ih =>
    intro cur
    simp only [List.map_cons, wordsAux, isJsWs_newlineToSpace]
    by_cases hws : isJsWs c = true
    · rw [if_pos hws, if_pos hws]
      split
      · rw [ih]
      · exact ih []
    · have hc : newlineToSpace c = c := by
        refine newlineToSpace_eq_self (fun hcc => ?_)
        rw [hcc] at hws
        exact hws rfl
      rw [if_neg hws, if_neg hws, hc, ih]

theorem map_toLower_newline_eq :
    ∀ (sl pat : List Char), (∀ pc ∈ pat, pc ≠ ' ' ∧ pc ≠ '\n') →
      ((sl.map newlineToSpace).map Char.toLower = pat ↔
        sl.map Char.toLower = pat) := by
  intro sl
  induction sl with
  | nil => intro pat _; exact Iff.rfl
  | cons c t ih =>
    intro pat hpat
    cases pat with
    | nil => simp
    | cons pc pt =>
      obtain ⟨hsp, hnl⟩ := hpat pc (by simp)
      have hpt : ∀ x ∈ pt, x ≠ ' ' ∧ x ≠ '\n' :=
        fun x hx => hpat x (by simp [hx])
      simp only [List.map_cons, List.cons.injEq]
      constructor
      · rintro ⟨h1, h2⟩
        refine ⟨?_, (ih pt hpt).mp h2⟩
        rcases newlineToSpace_cases c with hcc | ⟨rfl, hcc⟩
        · rw [hcc] at h1; exact h1
        · rw [hcc] at h1
          have hsp' : Char.toLower ' ' = ' ' := by decide
          rw [hsp'] at h1
          exact absurd h1.symm hsp
      · rintro ⟨h1, h2⟩
        refine ⟨?_, (ih pt hpt).mpr h2⟩
        rcases newlineToSpace_cases c with hcc | ⟨rfl, hcc⟩
        · rw [hcc]; exact h1
        · exfalso
          have hnl' : Char.toLower '\n' = '\n' := by decide
          rw [hnl'] at h1
          exact hnl h1.symm

theorem toLower_match_no_nl {sl pat : List Char}
    (hpat : ∀ pc ∈ pat, pc ≠ '\n') (h : sl.map Char.toLower = pat) :
    '\n' ∉ sl := by
  intro hmem
  have h1 : Char.toLower '\n' ∈ sl.map Char.toLower := List.mem_map_of_mem _ hmem
  rw [h] at h1
  have hnl' : Char.toLower '\n' = '\n' := by decide
  rw [hnl'] at h1
  exact hpat _ h1 rfl

theorem tryColor_map {s : List Char} {i : Nat} {pat : List Char}
    (hpat : ∀ pc ∈ pat, pc ≠ ' ' ∧ pc ≠ '\n') :
    tryColorAt (s.map newlineToSpace) i pat = tryColorAt s i pat := by
  unfold tryColorAt
  rw [← List.map_drop, ← List.map_take, List.length_map]
  simp only [map_toLower_newline_eq ((s.drop i).take pat.length) pat hpat]
  by_cases hcond : ((s.drop i).take pat.length).length = pat.length ∧
      ((s.drop i).take pat.length).map Char.toLower = pat
  · rw [if_pos hcond, if_pos hcond]
    rw [map_newlineToSpace_id
      (toLower_match_no_nl (fun pc hpc => (hpat pc hpc).2) hcond.2)]
  · rw [if_neg hcond, if_neg hcond]

theorem firstSome_congr {ps : List (List Char)}
    {f1 f2 : List Char → Option (List Char)} (h : ∀ p ∈ ps, f1 p = f2 p) :
    firstSome ps f1 = firstSome ps f2 := by
  induction ps with
  | nil => rfl
  | cons p rest ih =>
    rw [firstSome, firstSome, h p (by simp)]
    cases f2 p with
    | some m => rfl
    | none => exact ih (fun q hq => h q (List.mem_cons_of_mem _ hq))

theorem matchColor_map (s : List Char) (i : Nat) :
    matchColorAt (s.map newlineToSpace) i = matchColorAt s i := by
  unfold matchColorAt
  refine firstSome_congr ?_
  intro p hp
  refine tryColor_map ?_
  have hq : ∀ q ∈ colorTokens, ∀ pc ∈ q, pc ≠ ' ' ∧ pc ≠ '\n' := by decide
  exact hq p hp

theorem findColorMatchesF_map (s : List Char) :
    ∀ (fuel i : Nat), findColorMatchesF (s.map newlineToSpace) fuel i =
      findColorMatchesF s fuel i := by
  intro fuel
  induction fuel with
  | zero => intro i; rfl
  | succ fuel ih =>
    intro i
    rw [findColorMatchesF, findColorMatchesF, List.length_map, matchColor_map]
    split
    · cases matchColorAt s i with
      | some m =>
        dsimp only
        rw [ih]
      | none =>
        dsimp only
        exact ih _
    · rfl

theorem findColorMatches_map (s : List Char) :
    findColorMatches (s.map newlineToSpace) = findColorMatches s := by
  unfold findColorMatches
  rw [List.length_map, findColorMatchesF_map]

theorem isPrefixOf_map_newline {pat : List Char} (hsp : ' ' ∉ pat)
    (hnl : '\n' ∉ pat) :
    ∀ (s : List Char), pat.isPrefixOf (s.map newlineToSpace) = pat.isPrefixOf s := by
  induction pat with
  | nil => intro s; cases s <;> rfl
  | cons pc pt ih =>
    intro s
    cases s with
    | nil => rfl
    | cons c rest =>
      simp only [List.map_cons]
      show (pc == newlineToSpace c && pt.isPrefixOf (rest.map newlineToSpace)) =
        (pc == c && pt.isPrefixOf rest)
      rw [ih (fun h => hsp (List.mem_cons_of_mem _ h))
        (fun h => hnl (List.mem_cons_of_mem _ h))]
      rcases newlineToSpace_cases c with hcc | ⟨rfl, hcc⟩
      · rw [hcc]
      · rw [hcc]
        have h1 : (pc == ' ') = false := by
          refine beq_eq_false_iff_ne.mpr (fun h => ?_)
          exact hsp (h ▸ List.mem_cons_self pc pt)
        have h2 : (pc == '\n') = false := by
          refine beq_eq_false_iff_ne.mpr (fun h => ?_)
          exact hnl (h ▸ List.mem_cons_self pc pt)
        rw [h1, h2]

theorem replaceFirst_map_newline {pat repl : List Char} (hsp : ' ' ∉ pat)
    (hnl : '\n' ∉ pat) (hrepl : repl.map newlineToSpace = repl) :
    ∀ (s : List Char), replaceFirst (s.map newlineToSpace) pat repl =
      (replaceFirst s pat repl).map newlineToSpace := by
  intro s
  induction s with
  | nil =>
    show (if pat = [] then repl else []) =
      (if pat = [] then repl else []).map newlineToSpace
    split
    · rw [hrepl]
    · rfl
  | cons c rest ih =>
    simp only [List.map_cons]
    show (if pat = [] then repl ++ newlineToSpace c :: rest.map newlineToSpace
        else if pat.isPrefixOf (newlineToSpace c :: rest.map newlineToSpace) then
          repl ++ (newlineToSpace c :: rest.map newlineToSpace).drop pat.length
        else newlineToSpace c :: replaceFirst (rest.map newlineToSpace) pat repl) =
      (if pat = [] then repl ++ c :: rest
        else if pat.isPrefixOf (c :: rest) then repl ++ (c :: rest).drop pat.length
        else c :: replaceFirst rest pat repl).map newlineToSpace
    have hpre : pat.isPrefixOf (newlineToSpace c :: rest.map newlineToSpace) =
        pat.isPrefixOf (c :: rest) := by
      have := isPrefixOf_map_newline hsp hnl (c :: rest)
      simpa using this
    by_cases hp : pat = []
    · rw [if_pos hp, if_pos hp, List.map_append, hrepl, List.map_cons]
    · rw [if_neg hp, if_neg hp, hpre]
      by_cases hpp : pat.isPrefixOf (c :: rest) = true
      · rw [if_pos hpp, if_pos hpp, List.map_append, hrepl]
        congr 1
        rw [← List.map_cons, ← List.map_drop]
      · rw [if_neg hpp, if_neg hpp, List.map_cons, ih]

theorem colorMatch_not_sp {m : List Char}
    (h : ∃ q ∈ colorTokens, m.length = q.length ∧ m.map Char.toLower = q) :
    ' ' ∉ m := by
  obtain ⟨q, hq, _, hmap⟩ := h
  intro hmem
  have h1 : Char.toLower ' ' ∈ m.map Char.toLower := List.mem_map_of_mem _ hmem
  rw [hmap] at h1
  have h2 : ' ' ∈ q := by simpa using h1
  have hall : ∀ x ∈ colorTokens, ' ' ∉ x := by decide
  exact hall q hq h2

theorem extractAux_map_newline :
    ∀ (ms : List (Nat × List Char)) (processed : List Char) (off : Int) (j : Nat),
      (∀ p ∈ ms, ' ' ∉ p.2 ∧ '\n' ∉ p.2) →
      extractAux ms (processed.map newlineToSpace) off j =
        ((extractAux ms processed off j).1.map newlineToSpace,
         (extractAux ms processed off j).2) := by
  intro ms
  induction ms with
  | nil => intro processed off j _; rfl
  | cons p rest ih =>
    intro processed off j hP
    obtain ⟨idx, m⟩ := p
    obtain ⟨hsp, hnl⟩ := hP (idx, m) (by simp)
    rw [extractAux, extractAux]
    rw [replaceFirst_map_newline hsp hnl
      (map_newlineToSpace_id (placeholderStr_not_nl j))]
    rw [ih _ _ _ (fun q hq => hP q (List.mem_cons_of_mem _ hq))]

/-- C2 (amended): the word wrapper gives newlines no line-breaking force —
replacing every newline in the input by a space leaves the result of
`formatTextForVestaboard` unchanged, for every input and every options
value; whitespace runs merely separate words. -/
theorem C2_amended_newline_acts_as_space (raw : List Char)
    (opts : TextFormattingOptions) :
    formatTextForVestaboard (raw.map newlineToSpace) opts =
      formatTextForVestaboard raw opts := by
  have hmatches : ∀ p ∈ findColorMatches raw, ' ' ∉ p.2 ∧ '\n' ∉ p.2 := by
    intro p hp
    have hsh := findColorMatchesF_mem_shape _ _ _ _ hp
    exact ⟨colorMatch_not_sp hsh, colorMatch_not_nl hsh⟩
  have hextract : extractColors (raw.map newlineToSpace) =
      ((extractColors raw).1.map newlineToSpace, (extractColors raw).2) := by
    unfold extractColors
    rw [findColorMatches_map]
    exact extractAux_map_newline _ _ _ _ hmatches
  have hwords : wrappedWords (raw.map newlineToSpace) = wrappedWords raw := by
    unfold wrappedWords splitWsFilter
    rw [hextract]
    exact wordsAux_map_newline _ []
  have hlines : wrappedLines (raw.map newlineToSpace) = wrappedLines raw := by
    unfold wrappedLines
    rw [hwords]
  have hcond : (raw.map newlineToSpace = [] ∨
      jsTrim (raw.map newlineToSpace) = []) ↔ (raw = [] ∨ jsTrim raw = []) := by
    constructor
    · rintro (h | h)
      · left; exact List.map_eq_nil_iff.mp h
      · right
        refine jsTrim_nil_iff.mpr (fun c hc => ?_)
        have := jsTrim_nil_iff.mp h (newlineToSpace c) (List.mem_map_of_mem _ hc)
        rwa [isJsWs_newlineToSpace] at this
    · rintro (rfl | h)
      · left; rfl
      · right
        refine jsTrim_nil_iff.mpr (fun c hc => ?_)
        obtain ⟨c0, hc0, rfl⟩ := List.mem_map.mp hc
        rw [isJsWs_newlineToSpace]
        exact jsTrim_nil_iff.mp h c0 hc0
  unfold formatTextForVestaboard
  rw [hlines, hextract]
  by_cases hc : raw = [] ∨ jsTrim raw = []
  · rw [if_pos hc, if_pos (hcond.mpr hc)]
  · rw [if_neg hc, if_neg (fun h => hc (hcond.mp h))]

end Vestaflare

namespace Vestaflare

theorem isDigit_ne_underscore {c : Char} (h : c.isDigit = true) : c ≠ '_' := by
  intro hc
  rw [hc] at h
  exact absurd h (by decide)

theorem natDigitsF_ne_nil :
    ∀ (fuel n : Nat), 0 < fuel → natDigitsF fuel n ≠ [] := by
  intro fuel n hf
  cases fuel with
  | zero => omega
  | succ f =>
    rw [natDigitsF]
    split
    · simp
    · simp

theorem natDigits_ne_nil (n : Nat) : natDigits n ≠ [] :=
  natDigitsF_ne_nil (n + 1) n (by omega)

theorem natDigits_isDigit {n : Nat} : ∀ c ∈ natDigits n, c.isDigit = true :=
  fun c hc => natDigitsF_isDigit (n + 1) n c hc

theorem renderToks_nil : renderToks [] = [] := rfl

theorem renderToks_cons (t : FTok) (ts : List FTok) :
    renderToks (t :: ts) = t.render ++ renderToks ts := by
  unfold renderToks
  rw [List.map_cons, List.flatten_cons]

theorem renderToks_append (a b : List FTok) :
    renderToks (a ++ b) = renderToks a ++ renderToks b := by
  unfold renderToks
  rw [List.map_append, List.flatten_append]

theorem render_ne_nil (t : FTok) : t.render ≠ [] := by
  cases t with
  | lit c => simp [FTok.render]
  | ph n =>
    unfold FTok.render placeholderStr
    simp [str]

theorem renderToks_eq_nil {ts : List FTok} (h : renderToks ts = []) : ts = [] := by
  cases ts with
  | nil => rfl
  | cons t rest =>
    rw [renderToks_cons] at h
    exact absurd (List.append_eq_nil.mp h).1 (render_ne_nil t)

theorem length_le_renderToks (ts : List FTok) :
    ts.length ≤ (renderToks ts).length := by
  induction ts with
  | nil => simp [renderToks_nil]
  | cons t rest ih =>
    rw [renderToks_cons, List.length_append, List.length_cons]
    have ht : 1 ≤ t.render.length :=
      List.length_pos.mpr (render_ne_nil t)
    omega

theorem takeWhile_all_append {p : Char → Bool} :
    ∀ (ds : List Char) (x : Char) (t : List Char), (∀ d ∈ ds, p d = true) →
      p x = false → List.takeWhile p (ds ++ x :: t) = ds := by
  intro ds
  induction ds with
  | nil =>
    intro x t _ hx
    simp [List.takeWhile_cons, hx]
  | cons d rest ih =>
    intro x t hds hx
    have hd : p d = true := hds d (by simp)
    simp only [List.cons_append, List.takeWhile_cons, hd]
    rw [ih x t (fun y hy => hds y (List.mem_cons_of_mem _ hy)) hx]
    simp

theorem placeholderStr_decomp (n : Nat) :
    placeholderStr n =
      str "__COLOR_" ++ natDigits n ++ ('_' :: '_' :: []) := by
  unfold placeholderStr
  congr 1

theorem placeholderPrefixLen_lit {c : Char} {rest : List Char} (hc : c ≠ '_') :
    placeholderPrefixLen (c :: rest) = none := by
  unfold placeholderPrefixLen
  rw [if_neg]
  intro h
  have h8 : (c :: rest).take 8 = c :: rest.take 7 := rfl
  rw [h8] at h
  have : c = '_' := by
    have := congrArg (fun l => l.head?) h
    simpa [str] using this
  exact hc this

theorem placeholderPrefixLen_ph (n : Nat) (R : List Char) :
    placeholderPrefixLen (placeholderStr n ++ R) =
      some (placeholderStr n).length := by
  have hds := natDigits_isDigit (n := n)
  have hdec : placeholderStr n ++ R =
      str "__COLOR_" ++ (natDigits n ++ ('_' :: '_' :: R)) := by
    rw [placeholderStr_decomp]
    simp
  unfold placeholderPrefixLen
  rw [hdec]
  have htake8 : (str "__COLOR_" ++ (natDigits n ++ ('_' :: '_' :: R))).take 8 =
      str "__COLOR_" := by
    rw [List.take_append_of_le_length (by simp [str])]
    simp [str]
  rw [if_pos htake8]
  have hdrop8 : (str "__COLOR_" ++ (natDigits n ++ ('_' :: '_' :: R))).drop 8 =
      natDigits n ++ ('_' :: '_' :: R) := by
    have : (str "__COLOR_").length = 8 := by decide
    rw [← this, List.drop_left]
  rw [hdrop8]
  have htw : (natDigits n ++ ('_' :: '_' :: R)).takeWhile Char.isDigit =
      natDigits n :=
    takeWhile_all_append (natDigits n) '_' ('_' :: R) hds (by decide)
  rw [htw]
  have hpos : 0 < (natDigits n).length :=
    List.length_pos.mpr (natDigits_ne_nil n)
  have hdropd : (natDigits n ++ ('_' :: '_' :: R)).drop (natDigits n).length =
      '_' :: '_' :: R := List.drop_left _ _
  rw [if_pos]
  · rw [placeholderStr_decomp]
    simp [str]
    omega
  · constructor
    · exact hpos
    · rw [← List.drop_drop, hdrop8, hdropd]
      rfl

theorem getEffectiveLengthF_nil (fuel : Nat) : getEffectiveLengthF fuel [] = 0 := by
  cases fuel <;> rfl

theorem getEffectiveLengthF_render :
    ∀ (fuel : Nat) (ts : List FTok), (∀ t ∈ ts, CleanTok t) →
      (renderToks ts).length ≤ fuel →
      getEffectiveLengthF fuel (renderToks ts) = ts.length := by
  intro fuel
  induction fuel with
  | zero =>
    intro ts _ hlen
    have hnil : renderToks ts = [] := List.length_eq_zero.mp (by omega)
    rw [hnil, getEffectiveLengthF_nil, renderToks_eq_nil hnil]
    rfl
  | succ fuel ih =>
    intro ts hclean hlen
    cases ts with
    | nil => rw [renderToks_nil]; rfl
    | cons t rest =>
      have hclean' : ∀ x ∈ rest, CleanTok x :=
        fun x hx => hclean x (List.mem_cons_of_mem _ hx)
      cases t with
      | lit c =>
        have hc : c ≠ '_' := hclean (FTok.lit c) (by simp)
        have hrc : renderToks (FTok.lit c :: rest) = c :: renderToks rest := by
          rw [renderToks_cons]; rfl
        rw [hrc]
        simp only [getEffectiveLengthF, placeholderPrefixLen_lit hc]
        rw [hrc] at hlen
        rw [ih rest hclean' (by simpa using hlen)]
        simp [Nat.add_comm]
      | ph n =>
        have hrc : renderToks (FTok.ph n :: rest) =
            placeholderStr n ++ renderToks rest := by
          rw [renderToks_cons]; rfl
        rw [hrc]
        rw [hrc] at hlen
        have hphlen : (placeholderStr n).length = 10 + (natDigits n).length := by
          rw [placeholderStr_decomp]
          simp [str]
          omega
        cases hph : placeholderStr n with
        | nil =>
          exfalso
          have := congrArg List.length hph
          rw [hphlen] at this
          simp at this
        | cons c0 ptl =>
          rw [List.cons_append]
          simp only [getEffectiveLengthF]
          have hpp : placeholderPrefixLen (c0 :: (ptl ++ renderToks rest)) =
              some (placeholderStr n).length := by
            rw [← List.cons_append, ← hph]
            exact placeholderPrefixLen_ph n (renderToks rest)
          rw [hpp]
          dsimp only
          have hdropr : (ptl ++ renderToks rest).drop
              ((placeholderStr n).length - 1) = renderToks rest := by
            have h1 : (placeholderStr n).length = ptl.length + 1 := by
              rw [hph]; rfl
            rw [h1, Nat.add_sub_cancel, List.drop_left]
          rw [hdropr]
          have hlen' : (renderToks rest).length ≤ fuel := by
            rw [List.length_append] at hlen
            omega
          rw [ih rest hclean' hlen']
          simp [Nat.add_comm]

theorem getEffectiveLength_render {ts : List FTok}
    (hclean : ∀ t ∈ ts, CleanTok t) :
    getEffectiveLength (renderToks ts) = ts.length :=
  getEffectiveLengthF_render _ ts hclean le_rfl

theorem prefix_underscore_false {c : Char} (hc : c ≠ '_') (l : List Char) :
    (str "__").isPrefixOf (c :: l) = false := by
  show (('_' == c) && (str "_").isPrefixOf l) = false
  have h1 : ('_' == c) = false := beq_eq_false_iff_ne.mpr (Ne.symm hc)
  rw [h1]
  rfl

theorem prefix_uu_false {d : Char} (hd : d ≠ '_') (l : List Char) :
    (str "__").isPrefixOf ('_' :: d :: l) = false := by
  show (('_' == '_') && (('_' == d) && List.isPrefixOf [] l)) = false
  have h1 : ('_' == d) = false := beq_eq_false_iff_ne.mpr (Ne.symm hd)
  rw [h1]
  rfl

theorem indexOfGo_cons_not {c : Char} {l : List Char} {j : Nat}
    (h : (str "__").isPrefixOf (c :: l) = false) :
    indexOfGo (str "__") (c :: l) j = indexOfGo (str "__") l (j + 1) := by
  rw [indexOfGo, if_neg]
  rw [h]
  exact Bool.false_ne_true

theorem indexOfGo_digits :
    ∀ (ds : List Char), (∀ d ∈ ds, d.isDigit = true) →
      ∀ (R : List Char) (j : Nat),
        indexOfGo (str "__") (ds ++ '_' :: '_' :: R) j = some (j + ds.length) := by
  intro ds
  induction ds with
  | nil =>
    intro _ R j
    have h0 : List.isPrefixOf ([] : List Char) R = true := by
      cases R <;> rfl
    have hpre : (str "__").isPrefixOf ('_' :: '_' :: R) = true := by
      show (('_' == '_') && (('_' == '_') && List.isPrefixOf [] R)) = true
      rw [h0]
      rfl
    rw [List.nil_append, indexOfGo, if_pos hpre]
    simp
  | cons d rest ih =>
    intro hds R j
    have hd : d ≠ '_' := isDigit_ne_underscore (hds d (by simp))
    rw [List.cons_append,
      indexOfGo_cons_not (prefix_underscore_false hd _),
      ih (fun y hy => hds y (List.mem_cons_of_mem _ hy)) R (j + 1)]
    simp only [Option.some.injEq, List.length_cons]
    omega

theorem indexOfGo_color (n : Nat) (R : List Char) (j : Nat) :
    indexOfGo (str "__") (str "COLOR_" ++ (natDigits n ++ '_' :: '_' :: R)) j =
      some (j + 6 + (natDigits n).length) := by
  obtain ⟨d0, ds', hds0⟩ : ∃ d0 ds', natDigits n = d0 :: ds' := by
    cases h : natDigits n with
    | nil => exact absurd h (natDigits_ne_nil n)
    | cons a b => exact ⟨a, b, rfl⟩
  have hd0 : d0 ≠ '_' := by
    refine isDigit_ne_underscore (natDigits_isDigit (n := n) d0 ?_)
    rw [hds0]
    simp
  have hC : str "COLOR_" ++ (natDigits n ++ '_' :: '_' :: R) =
      'C' :: 'O' :: 'L' :: 'O' :: 'R' :: '_' :: (natDigits n ++ '_' :: '_' :: R) :=
    rfl
  rw [hC, hds0]
  rw [indexOfGo_cons_not (prefix_underscore_false (by decide) _),
    indexOfGo_cons_not (prefix_underscore_false (by decide) _),
    indexOfGo_cons_not (prefix_underscore_false (by decide) _),
    indexOfGo_cons_not (prefix_underscore_false (by decide) _),
    indexOfGo_cons_not (prefix_underscore_false (by decide) _)]
  rw [show ('_' :: (d0 :: ds' ++ '_' :: '_' :: R)) =
    ('_' :: d0 :: (ds' ++ '_' :: '_' :: R)) from rfl]
  rw [indexOfGo_cons_not (prefix_uu_false hd0 _)]
  have hds' : ∀ d ∈ d0 :: ds', d.isDigit = true := by
    rw [← hds0]
    exact fun d hd => natDigits_isDigit (n := n) d hd
  have hback : indexOfGo (str "__") (d0 :: (ds' ++ '_' :: '_' :: R)) (j + 1 + 1 + 1 + 1 + 1 + 1) =
      some ((j + 1 + 1 + 1 + 1 + 1 + 1) + (d0 :: ds').length) := by
    have h := indexOfGo_digits (d0 :: ds') hds' R (j + 1 + 1 + 1 + 1 + 1 + 1)
    simpa using h
  rw [hback]

theorem placeholderStr_length (n : Nat) :
    (placeholderStr n).length = 10 + (natDigits n).length := by
  rw [placeholderStr_decomp]
  simp [str]
  omega

theorem placeholderStr_append (n : Nat) (X : List Char) :
    placeholderStr n ++ X =
      str "__COLOR_" ++ (natDigits n ++ ('_' :: '_' :: X)) := by
  rw [placeholderStr_decomp]
  simp

theorem startsWithAt_lit_false {w : List Char} {i : Nat} {c : Char}
    (hc : c ≠ '_') {X : List Char} (hdrop : w.drop i = c :: X) :
    startsWithAt w (str "__COLOR_") i = false := by
  unfold startsWithAt
  rw [hdrop]
  have h8 : (c :: X).take (str "__COLOR_").length = c :: X.take 7 := rfl
  rw [h8]
  refine beq_eq_false_iff_ne.mpr ?_
  intro h
  have hun : c = '_' := by
    have := congrArg (fun l => l.head?) h
    simpa [str] using this
  exact hc hun

theorem startsWithAt_ph_true {w : List Char} {i n : Nat} {X : List Char}
    (hdrop : w.drop i = placeholderStr n ++ X) :
    startsWithAt w (str "__COLOR_") i = true := by
  unfold startsWithAt
  rw [hdrop, placeholderStr_append]
  rw [List.take_append_of_le_length (by simp [str])]
  rw [show (str "__COLOR_").take (str "__COLOR_").length = str "__COLOR_" from rfl]
  simp

theorem indexOfFrom_ph {w : List Char} {i n : Nat} {X : List Char}
    (hdrop : w.drop i = placeholderStr n ++ X) :
    indexOfFrom w (str "__") (i + 2) =
      some (i + 2 + 6 + (natDigits n).length) := by
  have hd2 : (w.drop i).drop 2 = w.drop (i + 2) := by
    rw [List.drop_drop, Nat.add_comm]
  have h2 : w.drop (i + 2) = str "COLOR_" ++ (natDigits n ++ '_' :: '_' :: X) := by
    rw [← hd2, hdrop, placeholderStr_append]
    rw [show str "__COLOR_" ++ (natDigits n ++ ('_' :: '_' :: X)) =
      '_' :: '_' :: (str "COLOR_" ++ (natDigits n ++ '_' :: '_' :: X)) from rfl]
    rfl
  unfold indexOfFrom
  rw [h2, indexOfGo_color]

theorem splitWalkF_render :
    ∀ (rest : List FTok) (w : List Char) (fuel i cl : Nat),
      (∀ t ∈ rest, CleanTok t) →
      w.drop i = renderToks rest →
      i ≤ w.length →
      rest.length ≤ fuel →
      splitWalkF w 22 fuel i cl i =
        i + (renderToks (rest.take (22 - cl))).length := by
  intro rest
  induction rest with
  | nil =>
    intro w fuel i cl _ hdrop hiw _
    have hi : i = w.length := by
      have hx := congrArg List.length hdrop
      rw [List.length_drop] at hx
      simp [renderToks] at hx
      omega
    cases fuel with
    | zero => simp [splitWalkF, renderToks]
    | succ f =>
      simp only [splitWalkF]
      rw [if_neg (by intro hcon; omega)]
      simp [renderToks]
  | cons t rest' ih =>
    intro w fuel i cl hclean hdrop hiw hfuel
    have hclean' : ∀ x ∈ rest', CleanTok x :=
      fun x hx => hclean x (List.mem_cons_of_mem _ hx)
    cases fuel with
    | zero =>
      exfalso
      rw [List.length_cons] at hfuel
      omega
    | succ f =>
      by_cases hcl : cl < 22
      case neg =>
        simp only [splitWalkF]
        rw [if_neg (by intro hcon; exact hcl hcon.2)]
        have hz : 22 - cl = 0 := by omega
        simp [hz, renderToks]
      case pos =>
        have hlen : (renderToks (t :: rest')).length = w.length - i := by
          rw [← hdrop, List.length_drop]
        have hpos : 0 < (renderToks (t :: rest')).length := by
          rw [renderToks_cons, List.length_append]
          have h1 : 1 ≤ t.render.length := List.length_pos.mpr (render_ne_nil t)
          omega
        have hi : i < w.length := by omega
        have h22 : 22 - cl = (22 - (cl + 1)) + 1 := by omega
        have hfuel' : rest'.length ≤ f := by
          rw [List.length_cons] at hfuel
          omega
        simp only [splitWalkF]
        rw [if_pos (⟨hi, hcl⟩ : i < w.length ∧ cl < 22)]
        cases t with
        | lit c =>
          have hc : c ≠ '_' := hclean (FTok.lit c) (by simp)
          have hdropc : w.drop i = c :: renderToks rest' := by
            rw [hdrop, renderToks_cons]
            rfl
          rw [startsWithAt_lit_false hc hdropc]
          rw [if_neg Bool.false_ne_true]
          have hdrop1 : w.drop (i + 1) = renderToks rest' := by
            have hdd : (w.drop i).drop 1 = w.drop (i + 1) := by
              rw [List.drop_drop, Nat.add_comm]
            rw [← hdd, hdropc]
            rfl
          rw [ih w f (i + 1) (cl + 1) hclean' hdrop1 (by omega) hfuel']
          rw [h22, List.take_succ_cons, renderToks_cons, List.length_append]
          simp only [FTok.render, List.length_cons, List.length_nil]
          omega
        | ph n =>
          have hdropp : w.drop i = placeholderStr n ++ renderToks rest' := by
            rw [hdrop, renderToks_cons]
            rfl
          rw [startsWithAt_ph_true hdropp]
          rw [if_pos rfl]
          rw [indexOfFrom_ph hdropp]
          dsimp only
          have hplen := placeholderStr_length n
          have hdropL : w.drop (i + 2 + 6 + (natDigits n).length + 2) =
              renderToks rest' := by
            have he : i + 2 + 6 + (natDigits n).length + 2 =
                i + (placeholderStr n).length := by omega
            rw [he, ← List.drop_drop, hdropp, List.drop_left]
          have hiw' : i + 2 + 6 + (natDigits n).length + 2 ≤ w.length := by
            have hlen2 := congrArg List.length hdropp
            rw [List.length_drop, List.length_append] at hlen2
            omega
          rw [ih w f (i + 2 + 6 + (natDigits n).length + 2) (cl + 1)
            hclean' hdropL hiw' hfuel']
          rw [h22, List.take_succ_cons, renderToks_cons, List.length_append]
          simp only [FTok.render]
          omega

theorem splitWalk_render {ts : List FTok} (hclean : ∀ t ∈ ts, CleanTok t) :
    splitWalk (renderToks ts) 22 = (renderToks (ts.take 22)).length := by
  unfold splitWalk
  have h := splitWalkF_render ts (renderToks ts) (renderToks ts).length 0 0
    hclean rfl (by omega) (length_le_renderToks ts)
  simpa using h

theorem chunksF_congr :
    ∀ (f₁ f₂ : Nat) (ts : List FTok), ts.length < f₁ → ts.length < f₂ →
      chunksF f₁ ts = chunksF f₂ ts := by
  intro f₁
  induction f₁ with
  | zero =>
    intro f₂ ts h1 _
    exact absurd h1 (by omega)
  | succ f₁ ih =>
    intro f₂ ts h1 h2
    cases f₂ with
    | zero => exact absurd h2 (by omega)
    | succ f₂ =>
      simp only [chunksF]
      by_cases h22 : 22 < ts.length
      · rw [if_pos h22, if_pos h22]
        congr 1
        exact ih f₂ (ts.drop 22) (by rw [List.length_drop]; omega)
          (by rw [List.length_drop]; omega)
      · rw [if_neg h22, if_neg h22]

theorem chunksF_ne_nil {fuel : Nat} {ts : List FTok} (hne : ts ≠ [])
    (hf : ts.length < fuel) : chunksF fuel ts ≠ [] := by
  cases fuel with
  | zero => exact absurd hf (by omega)
  | succ f =>
    simp only [chunksF]
    by_cases h22 : 22 < ts.length
    · rw [if_pos h22]
      exact List.cons_ne_nil _ _
    · rw [if_neg h22,
        if_pos (by have := List.length_pos.mpr hne; omega : ts.length > 0)]
      exact List.cons_ne_nil _ _

theorem chunksF_le22 {ts : List FTok} (hle : ts.length ≤ 22)
    (hpos : 0 < ts.length) (fuel : Nat) : chunksF (fuel + 1) ts = [ts] := by
  simp only [chunksF]
  rw [if_neg (by omega), if_pos hpos]

theorem chunksF_mem_sub :
    ∀ (fuel : Nat) (ts : List FTok) (c : List FTok), c ∈ chunksF fuel ts →
      ∀ t ∈ c, t ∈ ts := by
  intro fuel
  induction fuel with
  | zero =>
    intro ts c hc
    simp [chunksF] at hc
  | succ f ih =>
    intro ts c hc t ht
    simp only [chunksF] at hc
    by_cases h22 : 22 < ts.length
    · rw [if_pos h22] at hc
      rcases List.mem_cons.mp hc with hc | hc
      · subst hc
        exact List.mem_of_mem_take ht
      · exact List.mem_of_mem_drop (ih (ts.drop 22) c hc t ht)
    · rw [if_neg h22] at hc
      by_cases hp : ts.length > 0
      · rw [if_pos hp] at hc
        have hce : c = ts := by simpa using hc
        subst hce
        exact ht
      · rw [if_neg hp] at hc
        simp at hc

theorem chunksF_shape :
    ∀ (fuel : Nat) (ts : List FTok), ts.length < fuel →
      (∀ c ∈ (chunksF fuel ts).dropLast, c.length = 22) ∧
      (∀ c ∈ chunksF fuel ts, 1 ≤ c.length ∧ c.length ≤ 22) := by
  intro fuel
  induction fuel with
  | zero =>
    intro ts h
    exact absurd h (by omega)
  | succ f ih =>
    intro ts hf
    simp only [chunksF]
    by_cases h22 : 22 < ts.length
    · rw [if_pos h22]
      have hlen : (ts.drop 22).length = ts.length - 22 := List.length_drop _ _
      have hne : ts.drop 22 ≠ [] := by
        intro h
        have hx := congrArg List.length h
        rw [hlen] at hx
        simp at hx
        omega
      have hrec := ih (ts.drop 22) (by omega)
      have hcne : chunksF f (ts.drop 22) ≠ [] := chunksF_ne_nil hne (by omega)
      constructor
      · intro c hc
        rw [List.dropLast_cons_of_ne_nil hcne] at hc
        rcases List.mem_cons.mp hc with hc | hc
        · subst hc
          rw [List.length_take]
          omega
        · exact hrec.1 c hc
      · intro c hc
        rcases List.mem_cons.mp hc with hc | hc
        · subst hc
          rw [List.length_take]
          omega
        · exact hrec.2 c hc
    · rw [if_neg h22]
      by_cases hp : ts.length > 0
      · rw [if_pos hp]
        constructor
        · intro c hc
          simp [List.dropLast] at hc
        · intro c hc
          have hce : c = ts := by simpa using hc
          subst hce
          omega
      · rw [if_neg hp]
        constructor <;> intro c hc <;> simp at hc

theorem splitLongWordF_render :
    ∀ (fuel : Nat) (ts : List FTok), (∀ t ∈ ts, CleanTok t) →
      splitLongWordF fuel (renderToks ts) = (chunksF fuel ts).map renderToks := by
  intro fuel
  induction fuel with
  | zero =>
    intro ts _
    rfl
  | succ f ih =>
    intro ts hclean
    simp only [splitLongWordF, chunksF, getEffectiveLength_render hclean]
    by_cases h22 : 22 < ts.length
    · rw [if_pos h22, if_pos h22]
      rw [splitWalk_render hclean]
      have hsplit : renderToks ts =
          renderToks (ts.take 22) ++ renderToks (ts.drop 22) := by
        rw [← renderToks_append, List.take_append_drop]
      rw [hsplit, List.take_left, List.drop_left]
      rw [ih (ts.drop 22) (fun t ht => hclean t (List.mem_of_mem_drop ht))]
      rw [List.map_cons]
    · rw [if_neg h22, if_neg h22]
      by_cases hnil : ts = []
      · subst hnil
        simp [renderToks]
      · have h0 : 0 < ts.length := List.length_pos.mpr hnil
        have h0' : 0 < (renderToks ts).length := by
          have := length_le_renderToks ts
          omega
        rw [if_pos h0', if_pos h0]
        rfl

theorem splitLongWord_render {ts : List FTok} (hclean : ∀ t ∈ ts, CleanTok t) :
    splitLongWord (renderToks ts) = (chunks22 ts).map renderToks := by
  unfold splitLongWord chunks22
  rw [splitLongWordF_render ((renderToks ts).length + 1) ts hclean]
  exact congrArg (List.map renderToks)
    (chunksF_congr _ _ ts (by have := length_le_renderToks ts; omega) (by omega))

theorem buildLines_single_fit {w : List Char} (hle : getEffectiveLength w ≤ 22)
    (hw : 0 < w.length) : buildLinesWithWordWrapping [w] = [w] := by
  unfold buildLinesWithWordWrapping
  simp only [buildAux]
  rw [if_pos (by simpa [getEffectiveLength, getEffectiveLengthF] using hle)]
  have h1 : (if ([] : List Char).length > 0 then ([] : List Char) ++ ' ' :: w
      else [] ++ w) = w := by simp
  rw [h1]
  rw [if_pos hw]
  rfl

theorem buildLines_single_long {w : List Char}
    (hgt : 22 < getEffectiveLength w) :
    buildLinesWithWordWrapping [w] =
      if 0 < ((splitLongWord w).getLast?.getD []).length then
        (splitLongWord w).dropLast ++ [(splitLongWord w).getLast?.getD []]
      else (splitLongWord w).dropLast := by
  unfold buildLinesWithWordWrapping
  simp only [buildAux]
  rw [if_neg (by
    intro hcon
    rw [show getEffectiveLength ([] : List Char) = 0 from rfl] at hcon
    simp at hcon
    omega)]
  rw [if_pos hgt]
  have h1 : (if ([] : List Char).length > 0 then
      ([] : List (List Char)) ++ [[]] else []) = [] := by simp
  rw [h1, List.nil_append]

theorem chunks22_len23 {ts : List FTok} (h : ts.length = 23) :
    chunks22 ts = [ts.take 22, ts.drop 22] := by
  have hd : (ts.drop 22).length = 1 := by
    rw [List.length_drop, h]
  unfold chunks22
  simp only [chunksF]
  rw [if_pos (by omega : 22 < ts.length)]
  rw [chunksF_congr ts.length (1 + 1) (ts.drop 22) (by omega) (by omega)]
  rw [chunksF_le22 (by omega) (by omega) 1]

/-- C6 counterexample: the word `__COLOR_ab__ccccccccccc` is reachable (it
contains no whitespace and no color directive, so it reaches the wrapper
unchanged) and has effective display length 23, yet the wrapper emits it as
a single 23-unit line: `splitLongWord` counts the digit-less `__COLOR_ab__`
as one display unit (its scan is `startsWith` plus `indexOf` with no digit
check) while `getEffectiveLength` counts it as 12 (its regex requires
digits), so the claimed 22-unit line plus 1-unit continuation never
appears. -/
theorem C6_counterexample :
    getEffectiveLength (str "__COLOR_ab__ccccccccccc") = 23 ∧
    splitLongWord (str "__COLOR_ab__ccccccccccc") =
      [str "__COLOR_ab__ccccccccccc"] ∧
    buildLinesWithWordWrapping [str "__COLOR_ab__ccccccccccc"] =
      [str "__COLOR_ab__ccccccccccc"] := by
  decide

/-- C6 (amended): restricted to words in which every occurrence of the
placeholder head is a complete placeholder `__COLOR_<digits>__` — modeled as
the rendering of a token sequence of non-underscore literals and
placeholders, the only words the formatter itself fabricates — the claim
holds: a word of effective length exactly 22 occupies one full line with no
wrap; a word of effective length 23 splits into a 22-unit line followed by a
1-unit continuation line; and in general `splitLongWord` cuts an over-long
word into chunks of exactly 22 effective units each, only the last chunk
being shorter (between 1 and 22 units).  The restriction is forced: on a
word containing a bare `__COLOR_` marker without digits,
`getEffectiveLength` (whose regex requires digits) and `splitLongWord`'s
`indexOf`-based scan (which requires none) disagree, and the unrestricted
claim fails (see the counterexample). -/
theorem C6_long_word_chunks (ts : List FTok) (hclean : ∀ t ∈ ts, CleanTok t) :
    (ts.length = 22 →
      buildLinesWithWordWrapping [renderToks ts] = [renderToks ts]) ∧
    (ts.length = 23 →
      buildLinesWithWordWrapping [renderToks ts] =
        [renderToks (ts.take 22), renderToks (ts.drop 22)] ∧
      getEffectiveLength (renderToks (ts.take 22)) = 22 ∧
      getEffectiveLength (renderToks (ts.drop 22)) = 1) ∧
    (splitLongWord (renderToks ts) = (chunks22 ts).map renderToks ∧
      (∀ l ∈ (splitLongWord (renderToks ts)).dropLast,
        getEffectiveLength l = 22) ∧
      (ts ≠ [] → ∃ lst, (splitLongWord (renderToks ts)).getLast? = some lst ∧
        1 ≤ getEffectiveLength lst ∧ getEffectiveLength lst ≤ 22)) := by
  have heff := getEffectiveLength_render hclean
  refine ⟨?_, ?_, ?_, ?_, ?_⟩
  · intro h22
    apply buildLines_single_fit
    · rw [heff]
      omega
    · have := length_le_renderToks ts
      omega
  · intro h23
    have hgt : 22 < getEffectiveLength (renderToks ts) := by
      rw [heff]
      omega
    have hcleanA : ∀ t ∈ ts.take 22, CleanTok t :=
      fun t ht => hclean t (List.mem_of_mem_take ht)
    have hcleanB : ∀ t ∈ ts.drop 22, CleanTok t :=
      fun t ht => hclean t (List.mem_of_mem_drop ht)
    have hA : getEffectiveLength (renderToks (ts.take 22)) = 22 := by
      rw [getEffectiveLength_render hcleanA, List.length_take, h23]
      rfl
    have hB : getEffectiveLength (renderToks (ts.drop 22)) = 1 := by
      rw [getEffectiveLength_render hcleanB, List.length_drop, h23]
    have hsl : splitLongWord (renderToks ts) =
        [renderToks (ts.take 22), renderToks (ts.drop 22)] := by
      rw [splitLongWord_render hclean, chunks22_len23 h23]
      rfl
    have hBpos : 0 < (renderToks (ts.drop 22)).length := by
      have h1 : (ts.drop 22).length = 1 := by rw [List.length_drop, h23]
      have := length_le_renderToks (ts.drop 22)
      omega
    have hlast : ([renderToks (ts.take 22),
        renderToks (ts.drop 22)]).getLast?.getD [] =
        renderToks (ts.drop 22) := rfl
    have hdl : ([renderToks (ts.take 22),
        renderToks (ts.drop 22)]).dropLast = [renderToks (ts.take 22)] := rfl
    refine ⟨?_, hA, hB⟩
    rw [buildLines_single_long hgt, hsl, hlast, hdl, if_pos hBpos]
    rfl
  · exact splitLongWord_render hclean
  · intro l hl
    rw [splitLongWord_render hclean, ← List.map_dropLast] at hl
    obtain ⟨c, hc, rfl⟩ := List.mem_map.mp hl
    have hcm : c ∈ chunksF (ts.length + 1) ts := List.mem_of_mem_dropLast hc
    have hcc : ∀ t ∈ c, CleanTok t := fun t ht =>
      hclean t (chunksF_mem_sub _ ts c hcm t ht)
    rw [getEffectiveLength_render hcc]
    exact (chunksF_shape (ts.length + 1) ts (by omega)).1 c hc
  · intro hne
    have hlt : ts.length < ts.length + 1 := by omega
    have hcne : chunks22 ts ≠ [] := chunksF_ne_nil hne hlt
    have hmapne : (chunks22 ts).map renderToks ≠ [] := by
      intro h
      exact hcne (List.map_eq_nil_iff.mp h)
    rw [splitLongWord_render hclean]
    cases hgl : ((chunks22 ts).map renderToks).getLast? with
    | none => exact absurd (List.getLast?_eq_none_iff.mp hgl) hmapne
    | some l =>
      refine ⟨l, rfl, ?_⟩
      have hmem : l ∈ (chunks22 ts).map renderToks :=
        List.mem_of_mem_getLast? hgl
      obtain ⟨c, hc, rfl⟩ := List.mem_map.mp hmem
      have hcc : ∀ t ∈ c, CleanTok t := fun t ht =>
        hclean t (chunksF_mem_sub _ ts c hc t ht)
      rw [getEffectiveLength_render hcc]
      exact (chunksF_shape (ts.length + 1) ts hlt).2 c hc

/-- C6 witness: the 23-literal word `aaaaaaaaaaaaaaaaaaaaaaa` splits into a
full 22-unit line and a 1-unit continuation line. -/
theorem C6_witness :
    buildLinesWithWordWrapping [renderToks (List.replicate 23 (FTok.lit 'a'))] =
      [renderToks ((List.replicate 23 (FTok.lit 'a')).take 22),
        renderToks ((List.replicate 23 (FTok.lit 'a')).drop 22)] ∧
    getEffectiveLength
      (renderToks ((List.replicate 23 (FTok.lit 'a')).take 22)) = 22 ∧
    getEffectiveLength
      (renderToks ((List.replicate 23 (FTok.lit 'a')).drop 22)) = 1 :=
  (C6_long_word_chunks (List.replicate 23 (FTok.lit 'a'))
      (fun t ht => by
        rw [List.eq_of_mem_replicate ht]
        exact (by decide : ('a' : Char) ≠ '_'))).2.1 (by decide)

theorem toNat_ofNat_small {m : Nat} (h : m ≤ 122) :
    (Char.ofNat m).toNat = m := by
  unfold Char.ofNat
  rw [dif_pos (Or.inl (by omega) : Nat.isValidChar m)]
  rfl

theorem toLower_shape (c : Char) :
    c.toLower = c ∨ (97 ≤ c.toLower.toNat ∧ c.toLower.toNat ≤ 122) := by
  unfold Char.toLower
  by_cases h : c.toNat ≥ 65 ∧ c.toNat ≤ 90
  · rw [if_pos h]
    right
    rw [toNat_ofNat_small (by omega)]
    omega
  · rw [if_neg h]
    left
    rfl

theorem toLower_eq_lbrace {c : Char} (h : c.toLower = '\x7b') : c = '\x7b' := by
  rcases toLower_shape c with hs | hs
  · rw [← hs, h]
  · rw [h] at hs
    exact absurd hs (by decide)

theorem toLower_eq_rbrace {c : Char} (h : c.toLower = '\x7d') : c = '\x7d' := by
  rcases toLower_shape c with hs | hs
  · rw [← hs, h]
  · rw [h] at hs
    exact absurd hs (by decide)

theorem toLower_letter_ne_rbrace {c m : Char} (h : c.toLower = m)
    (hm : 97 ≤ m.toNat ∧ m.toNat ≤ 122) : c ≠ '\x7d' := by
  intro hc
  rw [hc] at h
  rw [show ('\x7d').toLower = '\x7d' from by decide] at h
  rw [← h] at hm
  exact absurd hm (by decide)

theorem lower_mid_invert :
    ∀ (mid cs' : List Char), (∀ c ∈ mid, 97 ≤ c.toNat ∧ c.toNat ≤ 122) →
      cs'.map Char.toLower = mid ++ ['\x7d'] →
      ∃ front, cs' = front ++ ['\x7d'] ∧ front.length = mid.length ∧
        ∀ c ∈ front, c ≠ '\x7d' := by
  intro mid
  induction mid with
  | nil =>
    intro cs' _ h
    cases cs' with
    | nil => simp at h
    | cons c t =>
      rw [List.map_cons, List.nil_append] at h
      have hc : c.toLower = '\x7d' := (List.cons.injEq _ _ _ _ ▸ h).1
      have ht : t.map Char.toLower = [] := (List.cons.injEq _ _ _ _ ▸ h).2
      have ht' : t = [] := List.map_eq_nil_iff.mp ht
      refine ⟨[], ?_, rfl, by simp⟩
      rw [ht', toLower_eq_rbrace hc]
      rfl
  | cons m mid' ih =>
    intro cs' hmid h
    cases cs' with
    | nil => simp at h
    | cons c t =>
      rw [List.map_cons, List.cons_append] at h
      have hc : c.toLower = m := (List.cons.injEq _ _ _ _ ▸ h).1
      have ht : t.map Char.toLower = mid' ++ ['\x7d'] :=
        (List.cons.injEq _ _ _ _ ▸ h).2
      obtain ⟨front, hf1, hf2, hf3⟩ := ih t
        (fun x hx => hmid x (List.mem_cons_of_mem _ hx)) ht
      refine ⟨c :: front, ?_, ?_, ?_⟩
      · rw [List.cons_append, hf1]
      · rw [List.length_cons, List.length_cons, hf2]
      · intro x hx
        rcases List.mem_cons.mp hx with hx | hx
        · subst hx
          exact toLower_letter_ne_rbrace hc (hmid m (by simp))
        · exact hf3 x hx

theorem dir_invert (mid : List Char) {cs : List Char}
    (hmid : ∀ c ∈ mid, 97 ≤ c.toNat ∧ c.toNat ≤ 122)
    (h : cs.map Char.toLower = '\x7b' :: mid ++ ['\x7d']) :
    ∃ front, cs = '\x7b' :: front ++ ['\x7d'] ∧
      front.length = mid.length ∧ ∀ c ∈ front, c ≠ '\x7d' := by
  cases cs with
  | nil => simp at h
  | cons c t =>
    rw [List.map_cons] at h
    have hc : c.toLower = '\x7b' := (List.cons.injEq _ _ _ _ ▸ h).1
    have ht : t.map Char.toLower = mid ++ ['\x7d'] :=
      (List.cons.injEq _ _ _ _ ▸ h).2
    obtain ⟨front, hf1, hf2, hf3⟩ := lower_mid_invert mid t hmid ht
    refine ⟨front, ?_, hf2, hf3⟩
    rw [toLower_eq_lbrace hc, hf1]
    rfl

theorem dir_struct {cs : List Char} (h : cs.map Char.toLower ∈ colorTokens) :
    ∃ front, cs = '\x7b' :: front ++ ['\x7d'] ∧ ∀ c ∈ front, c ≠ '\x7d' := by
  have h7 := h
  simp only [colorTokens, List.mem_cons, List.not_mem_nil, or_false] at h7
  rcases h7 with h7 | h7 | h7 | h7 | h7 | h7 | h7
  · obtain ⟨f, h1, _, h3⟩ :=
      dir_invert (str "red") (by decide) (h7.trans (by decide))
    exact ⟨f, h1, h3⟩
  · obtain ⟨f, h1, _, h3⟩ :=
      dir_invert (str "orange") (by decide) (h7.trans (by decide))
    exact ⟨f, h1, h3⟩
  · obtain ⟨f, h1, _, h3⟩ :=
      dir_invert (str "yellow") (by decide) (h7.trans (by decide))
    exact ⟨f, h1, h3⟩
  · obtain ⟨f, h1, _, h3⟩ :=
      dir_invert (str "green") (by decide) (h7.trans (by decide))
    exact ⟨f, h1, h3⟩
  · obtain ⟨f, h1, _, h3⟩ :=
      dir_invert (str "blue") (by decide) (h7.trans (by decide))
    exact ⟨f, h1, h3⟩
  · obtain ⟨f, h1, _, h3⟩ :=
      dir_invert (str "violet") (by decide) (h7.trans (by decide))
    exact ⟨f, h1, h3⟩
  · obtain ⟨f, h1, _, h3⟩ :=
      dir_invert (str "white") (by decide) (h7.trans (by decide))
    exact ⟨f, h1, h3⟩

theorem indexOfGo_rbrace :
    ∀ (front : List Char), (∀ c ∈ front, c ≠ '\x7d') →
      ∀ (R : List Char) (j : Nat),
        indexOfGo (str "\x7d") (front ++ '\x7d' :: R) j =
          some (j + front.length) := by
  intro front
  induction front with
  | nil =>
    intro _ R j
    have h0 : List.isPrefixOf ([] : List Char) R = true := by
      cases R <;> rfl
    have hpre : (str "\x7d").isPrefixOf ('\x7d' :: R) = true := by
      show (('\x7d' == '\x7d') && List.isPrefixOf [] R) = true
      rw [h0]
      rfl
    rw [List.nil_append, indexOfGo, if_pos hpre]
    simp
  | cons c rest ih =>
    intro hf R j
    have hc : c ≠ '\x7d' := hf c (by simp)
    have hpre : (str "\x7d").isPrefixOf (c :: (rest ++ '\x7d' :: R)) = false := by
      show (('\x7d' == c) && List.isPrefixOf [] (rest ++ '\x7d' :: R)) = false
      rw [beq_eq_false_iff_ne.mpr (Ne.symm hc)]
      rfl
    rw [List.cons_append, indexOfGo,
      if_neg (by rw [hpre]; exact Bool.false_ne_true)]
    rw [ih (fun y hy => hf y (List.mem_cons_of_mem _ hy)) R (j + 1)]
    simp only [Option.some.injEq, List.length_cons]
    omega

theorem getD_of_drop {w : List Char} {i : Nat} {c : Char} {X : List Char}
    (h : w.drop i = c :: X) : w.getD i ' ' = c := by
  have h1 : w[i]? = some c := by
    rw [← List.head?_drop, h]
    rfl
  simp [List.getD_eq_getElem?_getD, h1]

theorem lt_length_of_drop {w : List Char} {i : Nat} {c : Char} {X : List Char}
    (h : w.drop i = c :: X) : i < w.length := by
  have hx := congrArg List.length h
  rw [List.length_drop] at hx
  simp at hx
  omega

theorem vbmlF_end (fuel : Nat) (w : List Char) (i row col : Nat)
    (m : List (List Nat)) (h : w.length ≤ i) :
    vbmlToCharacterCodesF w fuel i row col m = some m := by
  cases fuel with
  | zero => rfl
  | succ f =>
    simp only [vbmlToCharacterCodesF]
    rw [if_neg (by intro hcon; omega)]

theorem renderV_cons (t : VTok) (ts : List VTok) :
    renderV (t :: ts) = t.render ++ renderV ts := by
  unfold renderV
  rw [List.map_cons, List.flatten_cons]

theorem vbmlF_renderV :
    ∀ (ts : List VTok) (w : List Char) (fuel i col : Nat)
      (row0 : List Nat) (mrest : List (List Nat)),
      (∀ t ∈ ts, VTokWF t) →
      w.drop i = renderV ts →
      i ≤ w.length →
      ts.length ≤ fuel →
      col + ts.length ≤ 22 →
      row0.length = 22 →
      vbmlToCharacterCodesF w fuel i 0 col (row0 :: mrest) =
        some (setSeq row0 col (ts.map VTok.code) :: mrest) := by
  intro ts
  induction ts with
  | nil =>
    intro w fuel i col row0 mrest _ hdrop hiw _ _ _
    have hi : w.length ≤ i := by
      have hx := congrArg List.length hdrop
      rw [List.length_drop] at hx
      simp [renderV] at hx
      omega
    rw [vbmlF_end _ _ _ _ _ _ hi]
    rfl
  | cons t ts' ih =>
    intro w fuel i col row0 mrest hwf hdrop hiw hfuel hcol hrow
    have hwf' : ∀ x ∈ ts', VTokWF x :=
      fun x hx => hwf x (List.mem_cons_of_mem _ hx)
    cases fuel with
    | zero =>
      exfalso
      rw [List.length_cons] at hfuel
      omega
    | succ f =>
      have hfuel' : ts'.length ≤ f := by
        rw [List.length_cons] at hfuel
        omega
      rw [List.length_cons] at hcol
      cases t with
      | lit c =>
        have hW : ∃ v, mapLookup [c.toUpper] = some v :=
          hwf (VTok.lit c) (by simp)
        obtain ⟨v, hv⟩ := hW
        have hdropc : w.drop i = c :: renderV ts' := by
          rw [hdrop, renderV_cons]
          rfl
        have hgetD : w.getD i ' ' = c := getD_of_drop hdropc
        have hi : i < w.length := lt_length_of_drop hdropc
        have hupne : c.toUpper ≠ '\x7b' := by
          intro hcc
          have hnone : mapLookup ['\x7b'] = none := by decide
          rw [hcc, hnone] at hv
          cases hv
        have hnlne : c.toUpper ≠ '\n' := by
          intro hcc
          have hnone : mapLookup ['\n'] = none := by decide
          rw [hcc, hnone] at hv
          cases hv
        have hdrop1 : w.drop (i + 1) = renderV ts' := by
          have hdd : (w.drop i).drop 1 = w.drop (i + 1) := List.drop_drop 1 i w
          rw [← hdd, hdropc]
          rfl
        have hset : setCell (row0 :: mrest) 0 col v =
            some ((row0.set col v) :: mrest) := by
          unfold setCell
          rw [show (row0 :: mrest).get? 0 = some row0 from rfl]
          dsimp only
          rw [if_pos (by omega : col < row0.length)]
          rfl
        simp only [vbmlToCharacterCodesF]
        rw [if_pos (⟨hi, by omega⟩ : i < w.length ∧ 0 < 6)]
        rw [hgetD]
        rw [if_neg hupne, if_neg hnlne, hv]
        dsimp only
        rw [hset]
        dsimp only
        by_cases hend : col + 1 < 22
        · have hwrap : wrapCheck 0 (col + 1) = (0, col + 1) := by
            unfold wrapCheck
            rw [if_neg (by omega)]
          rw [hwrap]
          have hres := ih w f (i + 1) (col + 1) (row0.set col v) mrest hwf'
            hdrop1 (by omega) hfuel' (by omega) (by rw [List.length_set]; exact hrow)
          rw [hres]
          have hcode : (VTok.lit c).code = v := by
            show (mapLookup [c.toUpper]).getD 0 = v
            rw [hv]
            rfl
          rw [List.map_cons, hcode]
          rfl
        · have hts' : ts' = [] := by
            cases ts' with
            | nil => rfl
            | cons a b =>
              exfalso
              rw [List.length_cons] at hcol
              omega
          subst hts'
          have hi1 : w.length ≤ i + 1 := by
            have hx := congrArg List.length hdrop1
            rw [List.length_drop] at hx
            simp [renderV] at hx
            omega
          rw [vbmlF_end f w (i + 1) (wrapCheck 0 (col + 1)).1
            (wrapCheck 0 (col + 1)).2 _ hi1]
          have hcode : (VTok.lit c).code = v := by
            show (mapLookup [c.toUpper]).getD 0 = v
            rw [hv]
            rfl
          rw [List.map_cons, hcode]
          rfl
      | dir cs =>
        have hmem : cs.map Char.toLower ∈ colorTokens :=
          hwf (VTok.dir cs) (by simp)
        obtain ⟨front, hcs, hfront⟩ := dir_struct hmem
        subst hcs
        have hdropA : w.drop i =
            ('\x7b' :: front ++ ['\x7d']) ++ renderV ts' := by
          rw [hdrop, renderV_cons]
          rfl
        have hdropB : w.drop i =
            '\x7b' :: (front ++ '\x7d' :: renderV ts') := by
          rw [hdropA]
          simp
        have hdropC : w.drop i =
            ('\x7b' :: front) ++ '\x7d' :: renderV ts' := by
          rw [hdropB]
          simp
        have hgetD : w.getD i ' ' = '\x7b' := getD_of_drop hdropB
        have hi : i < w.length := lt_length_of_drop hdropB
        have hfront' : ∀ x ∈ '\x7b' :: front, x ≠ '\x7d' := by
          intro x hx
          rcases List.mem_cons.mp hx with hx | hx
          · subst hx
            decide
          · exact hfront x hx
        have hidx : indexOfFrom w (str "\x7d") i =
            some (i + (front.length + 1)) := by
          unfold indexOfFrom
          rw [hdropC, indexOfGo_rbrace ('\x7b' :: front) hfront'
            (renderV ts') i]
          rw [List.length_cons, Nat.add_comm front.length 1]
        have hsub : jsSubstring w i (i + (front.length + 1) + 1) =
            '\x7b' :: front ++ ['\x7d'] := by
          unfold jsSubstring
          rw [hdropA]
          have hL : i + (front.length + 1) + 1 - i =
              ('\x7b' :: front ++ ['\x7d']).length := by
            simp
            omega
          rw [hL, List.take_left]
        have hlk : (mapLookup ((('\x7b' :: front ++ ['\x7d']).map
            Char.toLower))).getD 0 ≠ 0 := by
          revert hmem
          generalize ('\x7b' :: front ++ ['\x7d']).map Char.toLower = tok
          intro hmem
          exact (by decide : ∀ x ∈ colorTokens, (mapLookup x).getD 0 ≠ 0)
            tok hmem
        have hdrop1 : w.drop (i + (front.length + 1) + 1) = renderV ts' := by
          have hL : i + (front.length + 1) + 1 =
              i + ('\x7b' :: front ++ ['\x7d']).length := by
            simp
            omega
          rw [hL, ← List.drop_drop, hdropA, List.drop_left]
        have hset : setCell (row0 :: mrest) 0 col
            ((mapLookup ((('\x7b' :: front ++ ['\x7d']).map
              Char.toLower))).getD 0) =
            some ((row0.set col ((mapLookup ((('\x7b' :: front ++ ['\x7d']).map
              Char.toLower))).getD 0)) :: mrest) := by
          unfold setCell
          rw [show (row0 :: mrest).get? 0 = some row0 from rfl]
          dsimp only
          rw [if_pos (by omega : col < row0.length)]
          rfl
        simp only [vbmlToCharacterCodesF]
        rw [if_pos (⟨hi, by omega⟩ : i < w.length ∧ 0 < 6)]
        rw [hgetD]
        rw [if_pos (by decide : ('\x7b').toUpper = '\x7b')]
        rw [hidx]
        dsimp only
        rw [hsub]
        rw [if_pos hlk]
        rw [hset]
        dsimp only
        by_cases hend : col + 1 < 22
        · have hwrap : wrapCheck 0 (col + 1) = (0, col + 1) := by
            unfold wrapCheck
            rw [if_neg (by omega)]
          rw [hwrap]
          have hres := ih w f (i + (front.length + 1) + 1) (col + 1)
            (row0.set col ((mapLookup ((('\x7b' :: front ++ ['\x7d']).map
              Char.toLower))).getD 0)) mrest hwf' hdrop1
            (by
              have hx := congrArg List.length hdropA
              rw [List.length_drop, List.length_append] at hx
              simp at hx
              omega)
            hfuel' (by omega) (by rw [List.length_set]; exact hrow)
          rw [hres]
          rfl
        · have hts' : ts' = [] := by
            cases ts' with
            | nil => rfl
            | cons a b =>
              exfalso
              rw [List.length_cons] at hcol
              omega
          subst hts'
          have hi1 : w.length ≤ i + (front.length + 1) + 1 := by
            have hx := congrArg List.length hdrop1
            rw [List.length_drop] at hx
            simp [renderV] at hx
            omega
          rw [vbmlF_end f w (i + (front.length + 1) + 1)
            (wrapCheck 0 (col + 1)).1 (wrapCheck 0 (col + 1)).2 _ hi1]
          rfl

theorem decode_lookup {k : List Char} {v : Nat} (h : mapLookup k = some v) :
    decodeCode v = k := by
  unfold mapLookup at h
  cases hf : vbmlCharacterMap.find? (fun e => e.1 == k) with
  | none =>
    rw [hf] at h
    simp at h
  | some e =>
    rw [hf] at h
    have he2 : e.2 = v := by simpa using h
    have hbk := List.find?_some hf
    have hek : e.1 = k := by simpa using hbk
    have hmem : e ∈ vbmlCharacterMap := List.mem_of_find?_eq_some hf
    have hall : ∀ x ∈ vbmlCharacterMap, decodeCode x.2 = x.1 := by decide
    rw [← he2, hall e hmem, hek]

theorem setSeq_at :
    ∀ (codes done tail : List Nat), codes.length ≤ tail.length →
      setSeq (done ++ tail) done.length codes =
        done ++ codes ++ tail.drop codes.length := by
  intro codes
  induction codes with
  | nil =>
    intro done tail _
    simp [setSeq]
  | cons v vs ih =>
    intro done tail hlen
    cases tail with
    | nil => simp at hlen
    | cons t0 tail' =>
      rw [show setSeq (done ++ t0 :: tail') done.length (v :: vs) =
        setSeq ((done ++ t0 :: tail').set done.length v) (done.length + 1) vs
        from rfl]
      have hset : (done ++ t0 :: tail').set done.length v =
          (done ++ [v]) ++ tail' := by
        rw [List.set_append_right _ _ (by omega)]
        simp
      have hlen1 : done.length + 1 = (done ++ [v]).length := by simp
      rw [hset, hlen1, ih (done ++ [v]) tail' (by simpa using hlen)]
      simp

theorem flatten_replicate_singleton (c : Char) :
    ∀ k, (List.replicate k [c]).flatten = List.replicate k c := by
  intro k
  induction k with
  | zero => rfl
  | succ n ih =>
    rw [List.replicate_succ, List.flatten_cons, ih, List.replicate_succ]
    rfl

theorem decode_code_normalize {t : VTok} (h : VTokWF t) :
    decodeCode t.code = t.normalize := by
  cases t with
  | lit c =>
    have hW : ∃ v, mapLookup [c.toUpper] = some v := h
    obtain ⟨v, hv⟩ := hW
    show decodeCode ((mapLookup [c.toUpper]).getD 0) = [c.toUpper]
    rw [hv]
    show decodeCode v = [c.toUpper]
    exact decode_lookup hv
  | dir cs =>
    have hmem : cs.map Char.toLower ∈ colorTokens := h
    show decodeCode ((mapLookup (cs.map Char.toLower)).getD 0) =
      cs.map Char.toLower
    revert hmem
    generalize cs.map Char.toLower = tok
    intro hmem
    exact (by decide : ∀ x ∈ colorTokens,
      decodeCode ((mapLookup x).getD 0) = x) tok hmem

theorem render_ne_nil_V {t : VTok} (h : VTokWF t) : t.render ≠ [] := by
  cases t with
  | lit c => simp [VTok.render]
  | dir cs =>
    have hmem : cs.map Char.toLower ∈ colorTokens := h
    intro hnil
    rw [show VTok.render (VTok.dir cs) = cs from rfl] at hnil
    subst hnil
    exact absurd hmem (by decide)

theorem length_le_renderV :
    ∀ (ts : List VTok), (∀ t ∈ ts, VTokWF t) →
      ts.length ≤ (renderV ts).length := by
  intro ts
  induction ts with
  | nil =>
    intro _
    simp [renderV]
  | cons t rest ih =>
    intro hwf
    rw [renderV_cons, List.length_append, List.length_cons]
    have h1 : 1 ≤ t.render.length :=
      List.length_pos.mpr (render_ne_nil_V (hwf t (by simp)))
    have h2 := ih (fun x hx => hwf x (List.mem_cons_of_mem _ hx))
    omega

theorem vbml_renderV {ts : List VTok} (hwf : ∀ t ∈ ts, VTokWF t)
    (hle : ts.length ≤ 22) :
    vbmlToCharacterCodes (renderV ts) =
      some ((ts.map VTok.code ++ List.replicate (22 - ts.length) 0) ::
        List.replicate 5 (List.replicate 22 0)) := by
  unfold vbmlToCharacterCodes
  rw [show List.replicate 6 (List.replicate 22 (0 : Nat)) =
    List.replicate 22 (0 : Nat) :: List.replicate 5 (List.replicate 22 0)
    from rfl]
  rw [vbmlF_renderV ts (renderV ts) (renderV ts).length 0 0 _ _ hwf rfl
    (by omega) (length_le_renderV ts hwf) (by omega) (by simp)]
  have hss : setSeq (List.replicate 22 (0 : Nat)) 0 (ts.map VTok.code) =
      ts.map VTok.code ++
        (List.replicate 22 (0 : Nat)).drop (ts.map VTok.code).length := by
    have h := setSeq_at (ts.map VTok.code) [] (List.replicate 22 0)
      (by simp; omega)
    simpa using h
  rw [hss, List.length_map, List.drop_replicate]

theorem decode_row (ts : List VTok) (hwf : ∀ t ∈ ts, VTokWF t) (k : Nat) :
    ((ts.map VTok.code ++ List.replicate k 0).map decodeCode).flatten =
      normalizeV ts ++ List.replicate k ' ' := by
  rw [List.map_append, List.flatten_append]
  congr 1
  · rw [List.map_map]
    have hmc : ts.map (decodeCode ∘ VTok.code) = ts.map VTok.normalize :=
      List.map_congr_left (fun t ht => decode_code_normalize (hwf t ht))
    rw [hmc]
    rfl
  · have hz : (List.replicate k (0 : Nat)).map decodeCode =
        List.replicate k [' '] := by
      rw [List.map_replicate]
      rfl
    rw [hz, flatten_replicate_singleton]

/-- C8: for every token sequence of known literal characters and known color
directives (in any letter case), without newlines, that fits one grid row
without wrapping (at most 22 tokens), decoding the encoded matrix reproduces
the normalized text — literals upper-cased, directives lower-cased — padded
with blanks to the full 6×22 grid. -/
theorem C8_decode_encode_roundtrip (ts : List VTok)
    (hwf : ∀ t ∈ ts, VTokWF t) (hle : ts.length ≤ 22) :
    ∃ m, vbmlToCharacterCodes (renderV ts) = some m ∧
      characterCodesToText m =
        joinNl ((normalizeV ts ++ List.replicate (22 - ts.length) ' ') ::
          List.replicate 5 (List.replicate 22 ' ')) := by
  refine ⟨_, vbml_renderV hwf hle, ?_⟩
  unfold characterCodesToText
  have h0 : ((ts.map VTok.code ++
      List.replicate (22 - ts.length) 0).map decodeCode).flatten =
      normalizeV ts ++ List.replicate (22 - ts.length) ' ' :=
    decode_row ts hwf _
  have h5 : (List.replicate 5 (List.replicate 22 (0 : Nat))).map
      (fun row => (row.map decodeCode).flatten) =
      List.replicate 5 (List.replicate 22 ' ') := by
    rw [List.map_replicate]
    rfl
  simp only [List.map_cons]
  rw [h0, h5]

/-- C8 witness: the four-token text `hi \x7bReD\x7d` encodes and decodes back
to `HI \x7bred\x7d` padded with blanks. -/
theorem C8_witness :
    ∃ m, vbmlToCharacterCodes (renderV [VTok.lit 'h', VTok.lit 'i',
        VTok.lit ' ', VTok.dir (str "\x7bReD\x7d")]) = some m ∧
      characterCodesToText m =
        joinNl ((normalizeV [VTok.lit 'h', VTok.lit 'i', VTok.lit ' ',
            VTok.dir (str "\x7bReD\x7d")] ++
          List.replicate 18 ' ') ::
          List.replicate 5 (List.replicate 22 ' ')) :=
  C8_decode_encode_roundtrip
    [VTok.lit 'h', VTok.lit 'i', VTok.lit ' ', VTok.dir (str "\x7bReD\x7d")]
    (by
      intro t ht
      simp at ht
      rcases ht with rfl | rfl | rfl | rfl
      · exact ⟨8, by decide⟩
      · exact ⟨9, by decide⟩
      · exact ⟨0, by decide⟩
      · show (str "\x7bReD\x7d").map Char.toLower ∈ colorTokens
        decide)
    (by decide)
end Vestaflare
